import Mathlib

/-!
Verification of the common subgraph isomorphism (CSI) solver of
`Sawyer/GraphAlgorithm.h` (class `CommonSubgraphIsomorphism` and its
convenience wrappers).

The embedding is functional: the engine members mutated during a search
(`x`, `y`, `v`, `w`, `vNotX`, `minimumSolutionSize_`, `maximumSolutionSize_`
and the copied solution-processor state) are one record, and the recursive
member function `recurse` becomes a fuel-indexed function from state and
VAM to the next-action code, the final state, and the ordered list of
solutions reported to the solution processor.  `DenseIntegerSet` is
modelled as a strictly sorted list of ids (dense integer sets iterate
their members in increasing id order); the VAM is modelled as its
row-lookup function (`Vam::get`, with absent rows reading as the empty
row), since only `size`/`get` are observable.  The stack allocator and the
`progress` callback are performance and telemetry concerns with no effect
on the computed values and are not part of the model.  `size_t`
comparisons carry over to `Nat` directly because the solver only compares
these quantities; the `(size_t)(-1)` sentinels are kept as the literal
`2^64 - 1` of a 64-bit platform.
-/

namespace Sawyer

/-- A directed graph with dense zero-based vertex ids `0..nVertices-1` and a
list of directed edges (source, target); parallel edges are separate list
entries, exactly as a `Sawyer::Container::Graph` stores parallel edges. -/
structure Graph where
  nVertices : Nat
  edges : List (Nat × Nat)

/-- `CommonSubgraphIsomorphism::findEdges`: all edges of `g` with the given
source and target vertices, in edge-list order (zero or one edge usually,
more when the graph has parallel edges). -/
def findEdges (g : Graph) (sourceVertex targetVertex : Nat) : List (Nat × Nat) :=
  g.edges.filter (fun e => e.1 == sourceVertex && e.2 == targetVertex)

/-- Number of edges of `g` from `s` to `t`, parallel edges counted
individually. -/
def edgeCount (g : Graph) (s t : Nat) : Nat :=
  (findEdges g s t).length

/-- `CsiNextAction`: how the CSI algorithm should proceed after a solution
is reported. -/
inductive CsiNextAction where
  | CSI_CONTINUE
  | CSI_ABORT
deriving DecidableEq

/-- The `(size_t)(-1)` sentinel of a 64-bit platform, used by the C++ code
as the default `maximumSolutionSize_` and as the initial
`shortestRowLength`/`retval` of `pickVertex`. -/
def sizeTSentinel : Nat := 18446744073709551615

/-- The immutable inputs of one `CommonSubgraphIsomorphism` instance: the
two graphs, the equivalence predicate (its `mu` and `nu` parts, over
vertex ids and connecting-edge lists), the solution processor (state
transformer returning the next-action directive), and the two search-mode
flags.  `σ` is the solution processor state type. -/
structure CsiConfig (σ : Type) where
  g1 : Graph
  g2 : Graph
  mu : Nat → Nat → Bool
  nu : Nat → Nat → List (Nat × Nat) → Nat → Nat → List (Nat × Nat) → Bool
  proc : σ → List Nat → List Nat → σ × CsiNextAction
  findingCommonSubgraphs : Bool
  monotonicallyIncreasing : Bool

/-- The mutable members of a `CommonSubgraphIsomorphism` instance:
available vertex sets `v`, `w` (sorted id lists), the parallel solution
vectors `x`, `y`, the set `vNotX` (`v` minus the members of `x`), the two
solution-size bounds, and the copied solution-processor state. -/
structure CsiState (σ : Type) where
  v : List Nat
  w : List Nat
  x : List Nat
  y : List Nat
  vNotX : List Nat
  minimumSolutionSize : Nat
  maximumSolutionSize : Nat
  procState : σ

/-- The state established by the `CommonSubgraphIsomorphism` constructor:
empty sets and vectors, `minimumSolutionSize_(1)`,
`maximumSolutionSize_(-1)`. -/
def initialState (s0 : σ) : CsiState σ :=
  { v := [], w := [], x := [], y := [], vNotX := [],
    minimumSolutionSize := 1, maximumSolutionSize := sizeTSentinel,
    procState := s0 }

/-- `CommonSubgraphIsomorphism::reset`: make every vertex of `g1`
available in `v` and `vNotX`, every vertex of `g2` available in `w`, and
clear `x` and `y`. -/
def reset (cfg : CsiConfig σ) (st : CsiState σ) : CsiState σ :=
  { st with v := List.range cfg.g1.nVertices, w := List.range cfg.g2.nVertices,
            x := [], y := [], vNotX := List.range cfg.g1.nVertices }

/-- A vertex availability map, modelled by its row lookup: for a `g1`
vertex id `i`, the ordered list of `g2` candidate ids (`Vam::get`, which
reads absent rows as empty). -/
abbrev Vam := Nat → List Nat

/-- `CommonSubgraphIsomorphism::initializeVam`: one row per vertex `i` of
`v`, holding those `j` of `w` whose self-loop edge count matches that of
`i` and which satisfy `mu` and `nu` (the latter applied to the two
self-loop edge lists). -/
def initializeVam (cfg : CsiConfig σ) (st : CsiState σ) : Vam :=
  fun i =>
    if i ∈ st.v then
      st.w.filter (fun j =>
        let selfEdges1 := findEdges cfg.g1 i i
        let selfEdges2 := findEdges cfg.g2 j j
        selfEdges1.length == selfEdges2.length &&
          cfg.mu i j &&
          cfg.nu i i selfEdges1 j j selfEdges2)
    else []

/-- The loop of `isSolutionPossible` over `vNotX`: greedily count the
still-available `g1` vertices with a nonempty VAM row on top of the
committed solution size, returning true as soon as the projected size
reaches the minimum (common-subgraph mode) or `|V(g1)|` (plain subgraph
mode). -/
def solutionPossibleLoop (cfg : CsiConfig σ) (vam : Vam) (minSize : Nat) :
    Nat → List Nat → Bool
  | _, [] => false
  | largestPossibleSolution, i :: rest =>
    if 0 < (vam i).length then
      let larger := largestPossibleSolution + 1
      if (cfg.findingCommonSubgraphs && decide (minSize ≤ larger)) ||
         (!cfg.findingCommonSubgraphs && decide (cfg.g1.nVertices ≤ larger)) then
        true
      else
        solutionPossibleLoop cfg vam minSize larger rest
    else
      solutionPossibleLoop cfg vam minSize largestPossibleSolution rest

/-- `CommonSubgraphIsomorphism::isSolutionPossible`: in common-subgraph
mode a branch whose committed solution already reached the maximum size is
dead; otherwise the greedy projected size must be able to reach the
minimum (or all of `g1` in plain subgraph mode). -/
def isSolutionPossible (cfg : CsiConfig σ) (st : CsiState σ) (vam : Vam) : Bool :=
  if cfg.findingCommonSubgraphs && decide (st.maximumSolutionSize ≤ st.x.length) then
    false
  else
    solutionPossibleLoop cfg vam st.minimumSolutionSize st.x.length st.vNotX

/-- The loop of `pickVertex` over `vNotX`: track the shortest nonempty VAM
row seen so far (`shortestRowLength`, `retval` both starting at the
`size_t(-1)` sentinel) and return the id of the first row of minimal
nonzero length. -/
def pickVertexLoop (vam : Vam) : List Nat → Nat → Nat → Nat
  | [], _, retval => retval
  | i :: rest, shortestRowLength, retval =>
    let vs := (vam i).length
    if 0 < vs && vs < shortestRowLength then
      pickVertexLoop vam rest vs i
    else
      pickVertexLoop vam rest shortestRowLength retval

/-- `CommonSubgraphIsomorphism::pickVertex`: the still-available `g1`
vertex with the fewest VAM candidates (most-constrained-variable
heuristic). -/
def pickVertex (vam : Vam) (vNotX : List Nat) : Nat :=
  pickVertexLoop vam vNotX sizeTSentinel sizeTSentinel

/-- `CommonSubgraphIsomorphism::extendSolution`: commit the pair `(i, j)`
by appending to `x` and `y` and erasing `i` from `vNotX`. -/
def extendSolution (st : CsiState σ) (i j : Nat) : CsiState σ :=
  { st with x := st.x ++ [i], y := st.y ++ [j], vNotX := st.vNotX.erase i }

/-- `CommonSubgraphIsomorphism::retractSolution`: pop the last pair off
`x`/`y` and re-insert the popped `g1` vertex into `vNotX`. -/
def retractSolution (st : CsiState σ) : CsiState σ :=
  { st with x := st.x.dropLast, y := st.y.dropLast,
            vNotX := List.orderedInsert (· ≤ ·) (st.x.getLastD 0) st.vNotX }

/-- `CommonSubgraphIsomorphism::edgesAreSuitable`: having just committed
`(i, j)`, the unmatched pair `(iUnused, jUnused)` stays compatible when
the edge counts `i → iUnused` and `j → jUnused` agree, the reverse counts
agree, and, unless there are no connecting edges at all, the user
predicate `nu` accepts the two combined connecting-edge lists. -/
def edgesAreSuitable (cfg : CsiConfig σ) (i iUnused j jUnused : Nat) : Bool :=
  let edges1 := findEdges cfg.g1 i iUnused
  let edges2 := findEdges cfg.g2 j jUnused
  if edges1.length != edges2.length then
    false
  else
    let edges1b := edges1 ++ findEdges cfg.g1 iUnused i
    let edges2b := edges2 ++ findEdges cfg.g2 jUnused j
    if edges1b.length != edges2b.length then
      false
    else if edges1b.isEmpty && edges2b.isEmpty then
      true
    else
      cfg.nu i iUnused edges1b j jUnused edges2b

/-- `CommonSubgraphIsomorphism::refine`: the refined VAM built right after
`extendSolution` committed the pair `(x.back(), y.back())`: one row per
still-unmatched vertex `i`, keeping those parent candidates `j` that are
not `y.back()` and pass `edgesAreSuitable` against the committed pair. -/
def refine (cfg : CsiConfig σ) (st : CsiState σ) (vam : Vam) : Vam :=
  fun i =>
    if i ∈ st.vNotX then
      (vam i).filter (fun j =>
        j != st.y.getLastD 0 &&
          edgesAreSuitable cfg (st.x.getLastD 0) i (st.y.getLastD 0) j)
    else []

/-- `CommonSubgraphIsomorphism::isSolutionValidSize`: between the minimum
and maximum solution sizes in common-subgraph mode, exactly `|V(g1)|` in
plain subgraph mode. -/
def isSolutionValidSize (cfg : CsiConfig σ) (st : CsiState σ) : Bool :=
  if cfg.findingCommonSubgraphs then
    decide (st.minimumSolutionSize ≤ st.x.length) &&
      decide (st.x.length ≤ st.maximumSolutionSize)
  else
    st.x.length == cfg.g1.nVertices

/-- One reported solution: the parallel vertex-id vectors passed to the
solution processor. -/
abbrev Solution := List Nat × List Nat

/-- Result of one `recurse` invocation: the returned next-action code, the
engine state at return, and the solutions reported (in report order)
during the invocation. -/
abbrev RecResult (σ : Type) := CsiNextAction × CsiState σ × List Solution

/-- The solution-reporting tail of `recurse`: raise the minimum solution
size to the current size when `monotonicallyIncreasing_` is set, then
invoke the solution processor on `(x, y)` and propagate its directive. -/
def reportSolution (cfg : CsiConfig σ) (st : CsiState σ) : RecResult σ :=
  let st1 := if cfg.monotonicallyIncreasing then
               { st with minimumSolutionSize := st.x.length }
             else st
  let pr := cfg.proc st.procState st.x st.y
  (pr.2, { st1 with procState := pr.1 }, [(st.x, st.y)])

/-- The candidate loop of `recurse` (`BOOST_FOREACH (size_t j, vam.get(i))`):
for each candidate `j`, commit `(i, j)`, build the refined VAM, run the
recursive step `rec` on it, propagate `CSI_ABORT` immediately, and
otherwise retract the pair and continue with the remaining candidates. -/
def tryCandidates (cfg : CsiConfig σ) (rec : CsiState σ → Vam → RecResult σ)
    (st : CsiState σ) (vam : Vam) (i : Nat) : List Nat → RecResult σ
  | [] => (CsiNextAction.CSI_CONTINUE, st, [])
  | j :: js =>
    let stE := extendSolution st i j
    let r := rec stE (refine cfg stE vam)
    match r.1 with
    | CsiNextAction.CSI_ABORT => r
    | CsiNextAction.CSI_CONTINUE =>
      let r2 := tryCandidates cfg rec (retractSolution r.2.1) vam i js
      (r2.1, r2.2.1, r.2.2 ++ r2.2.2)

/-- `CommonSubgraphIsomorphism::recurse`.  While a qualifying solution is
still possible, pick the most constrained vertex `i`, loop over its
candidates, and (in common-subgraph mode) also try the branch that
permanently excludes `i` from `v`/`vNotX` with the unrefined VAM,
restoring the sets afterwards.  At a leaf, report the committed solution
when its size qualifies.  `CSI_ABORT` from any child returns immediately
(skipping the retraction and re-insertion of that frame).  The `fuel`
argument bounds the recursion depth; `run` supplies `|vNotX| + 1`, which
is never exhausted because every recursive call strictly shrinks
`vNotX`. -/
def recurse (cfg : CsiConfig σ) : Nat → CsiState σ → Vam → RecResult σ
  | 0, st, _ => (CsiNextAction.CSI_CONTINUE, st, [])
  | fuel + 1, st, vam =>
    if isSolutionPossible cfg st vam then
      let i := pickVertex vam st.vNotX
      let r1 := tryCandidates cfg (fun s va => recurse cfg fuel s va) st vam i (vam i)
      match r1.1 with
      | CsiNextAction.CSI_ABORT => r1
      | CsiNextAction.CSI_CONTINUE =>
        if cfg.findingCommonSubgraphs then
          let st2 := { r1.2.1 with v := r1.2.1.v.erase i, vNotX := r1.2.1.vNotX.erase i }
          let r2 := recurse cfg fuel st2 vam
          match r2.1 with
          | CsiNextAction.CSI_ABORT => (CsiNextAction.CSI_ABORT, r2.2.1, r1.2.2 ++ r2.2.2)
          | CsiNextAction.CSI_CONTINUE =>
            (CsiNextAction.CSI_CONTINUE,
             { r2.2.1 with v := List.orderedInsert (· ≤ ·) i r2.2.1.v,
                           vNotX := List.orderedInsert (· ≤ ·) i r2.2.1.vNotX },
             r1.2.2 ++ r2.2.2)
        else r1
    else if isSolutionValidSize cfg st then
      reportSolution cfg st
    else
      (CsiNextAction.CSI_CONTINUE, st, [])

/-- `CommonSubgraphIsomorphism::run`: reset the state, build the initial
VAM, and recurse from depth zero. -/
def run (cfg : CsiConfig σ) (st : CsiState σ) : RecResult σ :=
  let st1 := reset cfg st
  let vam := initializeVam cfg st1
  recurse cfg (cfg.g1.nVertices + 1) st1 vam

/-- The `MaximumIsomorphicSubgraphs` solution processor: drop all
accumulated solutions when a strictly larger one arrives, append the new
solution, and always continue. -/
def maximumIsomorphicSubgraphsProc (solutions : List Solution)
    (x y : List Nat) : List Solution × CsiNextAction :=
  let solutions1 :=
    if !solutions.isEmpty && decide ((solutions.headD ([], [])).1.length < x.length) then
      []
    else solutions
  (solutions1 ++ [(x, y)], CsiNextAction.CSI_CONTINUE)

/-- `findMaximumCommonIsomorphicSubgraphs` (default equivalence
predicate): run the solver with the `MaximumIsomorphicSubgraphs` processor
and `monotonicallyIncreasing(true)`, returning the accumulated largest
solutions. -/
def findMaximumCommonIsomorphicSubgraphs (g1 g2 : Graph) : List Solution :=
  let cfg : CsiConfig (List Solution) :=
    { g1 := g1, g2 := g2,
      mu := fun _ _ => true,
      nu := fun _ _ _ _ _ _ => true,
      proc := maximumIsomorphicSubgraphsProc,
      findingCommonSubgraphs := true,
      monotonicallyIncreasing := true }
  (run cfg (initialState [])).2.1.procState

end Sawyer

namespace Sawyer

/-! ## Structural invariants of the engine state -/

/-- Structural invariant of the mutable sets: `v` and `vNotX` are strictly
sorted id lists (the iteration order of a dense integer set), the members
of `vNotX` and of `x` lie in `v`, and `vNotX` is disjoint from `x`. -/
def StInv (v vNotX x : List Nat) : Prop :=
  v.Sorted (· < ·) ∧ vNotX.Sorted (· < ·) ∧
    (∀ a ∈ vNotX, a ∈ v) ∧ (∀ a ∈ x, a ∈ v) ∧ (∀ a ∈ vNotX, a ∉ x)

/-- Rows of a VAM never exceed the number of `g2` vertices: they arise by
filtering `w` and then by filtering parent rows. -/
def RowBound (cfg : CsiConfig σ) (vam : Vam) : Prop :=
  ∀ i, (vam i).length ≤ cfg.g2.nVertices

theorem sorted_lt_nodup {l : List Nat} (h : l.Sorted (· < ·)) : l.Nodup :=
  h.nodup

theorem sorted_lt_erase {l : List Nat} (h : l.Sorted (· < ·)) (a : Nat) :
    (l.erase a).Sorted (· < ·) :=
  List.Pairwise.sublist (List.erase_sublist a l) h

/-- Re-inserting an erased member of a strictly sorted list restores the
list: this is why `vNotX.insert(i)`/`v.insert(i)` after the recursive call
exactly undo the preceding `erase`. -/
theorem orderedInsert_erase (a : Nat) :
    ∀ (l : List Nat), a ∈ l → l.Sorted (· < ·) →
      List.orderedInsert (· ≤ ·) a (l.erase a) = l
  | [], ha, _ => absurd ha (List.not_mem_nil a)
  | b :: t, ha, hs => by
    rcases List.sorted_cons.mp hs with ⟨hbt, hst⟩
    by_cases hab : b = a
    · subst hab
      rw [List.erase_cons_head]
      cases t with
      | nil => rfl
      | cons c t' =>
        have hbc : b ≤ c := Nat.le_of_lt (hbt c (List.mem_cons_self c t'))
        simp [List.orderedInsert, hbc]
    · have hat : a ∈ t := by
        rcases List.mem_cons.mp ha with h | h
        · exact absurd h.symm hab
        · exact h
      have hba : b < a := hbt a hat
      rw [List.erase_cons_tail (by simp [hab])]
      simp only [List.orderedInsert]
      rw [if_neg (by omega), orderedInsert_erase a t hat hst]

theorem stInv_extend {v vNotX x : List Nat} {i : Nat}
    (hSt : StInv v vNotX x) (hi : i ∈ vNotX) :
    StInv v (vNotX.erase i) (x ++ [i]) := by
  obtain ⟨hv, hvnx, hsub, hxsub, hdisj⟩ := hSt
  have hnd : vNotX.Nodup := sorted_lt_nodup hvnx
  refine ⟨hv, sorted_lt_erase hvnx i, ?_, ?_, ?_⟩
  · intro a ha; exact hsub a (List.mem_of_mem_erase ha)
  · intro a ha
    rcases List.mem_append.mp ha with h | h
    · exact hxsub a h
    · rcases List.mem_singleton.mp h with rfl
      exact hsub a hi
  · intro a ha
    rcases (hnd.mem_erase_iff).mp ha with ⟨hne, hmem⟩
    intro hax
    rcases List.mem_append.mp hax with h | h
    · exact hdisj a hmem h
    · exact hne (List.mem_singleton.mp h)

theorem stInv_erase_both {v vNotX x : List Nat} {i : Nat}
    (hSt : StInv v vNotX x) (hi : i ∈ vNotX) :
    StInv (v.erase i) (vNotX.erase i) x := by
  obtain ⟨hv, hvnx, hsub, hxsub, hdisj⟩ := hSt
  have hndv : v.Nodup := sorted_lt_nodup hv
  have hndn : vNotX.Nodup := sorted_lt_nodup hvnx
  refine ⟨sorted_lt_erase hv i, sorted_lt_erase hvnx i, ?_, ?_, ?_⟩
  · intro a ha
    rcases (hndn.mem_erase_iff).mp ha with ⟨hne, hmem⟩
    exact (hndv.mem_erase_iff).mpr ⟨hne, hsub a hmem⟩
  · intro a ha
    have hne : a ≠ i := fun h => hdisj i hi (h ▸ ha)
    exact (hndv.mem_erase_iff).mpr ⟨hne, hxsub a ha⟩
  · intro a ha
    exact hdisj a (List.mem_of_mem_erase ha)

/-! ## Basic facts about the search primitives -/

theorem pickVertexLoop_result (vam : Vam) :
    ∀ (l : List Nat) (shortest r : Nat),
      pickVertexLoop vam l shortest r = r ∨
        (pickVertexLoop vam l shortest r ∈ l ∧
          0 < (vam (pickVertexLoop vam l shortest r)).length)
  | [], _, _ => Or.inl rfl
  | i :: rest, shortest, r => by
    simp only [pickVertexLoop]
    split
    next hcond =>
      rcases pickVertexLoop_result vam rest ((vam i).length) i with h1 | h1
      · rw [h1]
        right
        refine ⟨List.mem_cons_self i rest, ?_⟩
        have := (Bool.and_eq_true _ _).mp hcond
        exact of_decide_eq_true this.1
      · exact Or.inr ⟨List.mem_cons_of_mem i h1.1, h1.2⟩
    next hcond =>
      rcases pickVertexLoop_result vam rest shortest r with h1 | h1
      · exact Or.inl h1
      · exact Or.inr ⟨List.mem_cons_of_mem i h1.1, h1.2⟩

theorem pickVertexLoop_mem (vam : Vam) :
    ∀ (l : List Nat) (shortest r : Nat),
      (∃ i ∈ l, 0 < (vam i).length ∧ (vam i).length < shortest) →
      pickVertexLoop vam l shortest r ∈ l ∧
        0 < (vam (pickVertexLoop vam l shortest r)).length
  | [], _, _, hex => absurd hex (by simp)
  | i :: rest, shortest, r, hex => by
    simp only [pickVertexLoop]
    split
    next hcond =>
      rcases pickVertexLoop_result vam rest ((vam i).length) i with h1 | h1
      · rw [h1]
        refine ⟨List.mem_cons_self i rest, ?_⟩
        have := (Bool.and_eq_true _ _).mp hcond
        exact of_decide_eq_true this.1
      · exact ⟨List.mem_cons_of_mem i h1.1, h1.2⟩
    next hcond =>
      obtain ⟨i0, hi0mem, hi0pos, hi0lt⟩ := hex
      have hi0rest : i0 ∈ rest := by
        rcases List.mem_cons.mp hi0mem with h | h
        · exfalso
          apply hcond
          subst h
          exact (Bool.and_eq_true _ _).mpr ⟨decide_eq_true hi0pos, decide_eq_true hi0lt⟩
        · exact h
      have := pickVertexLoop_mem vam rest shortest r ⟨i0, hi0rest, hi0pos, hi0lt⟩
      exact ⟨List.mem_cons_of_mem i this.1, this.2⟩

theorem pickVertex_mem {vam : Vam} {vNotX : List Nat} {i0 : Nat}
    (h0 : i0 ∈ vNotX) (h1 : 0 < (vam i0).length) (h2 : (vam i0).length < sizeTSentinel) :
    pickVertex vam vNotX ∈ vNotX ∧ 0 < (vam (pickVertex vam vNotX)).length :=
  pickVertexLoop_mem vam vNotX sizeTSentinel sizeTSentinel ⟨i0, h0, h1, h2⟩

theorem solutionPossibleLoop_exists (cfg : CsiConfig σ) (vam : Vam) (minSize : Nat) :
    ∀ (acc : Nat) (l : List Nat),
      solutionPossibleLoop cfg vam minSize acc l = true →
      ∃ i ∈ l, 0 < (vam i).length
  | _, [], h => by simp [solutionPossibleLoop] at h
  | acc, i :: rest, h => by
    rw [solutionPossibleLoop] at h
    split at h
    next hpos =>
      exact ⟨i, List.mem_cons_self i rest, hpos⟩
    next hpos =>
      obtain ⟨i0, hmem, hlen⟩ := solutionPossibleLoop_exists cfg vam minSize acc rest h
      exact ⟨i0, List.mem_cons_of_mem i hmem, hlen⟩

theorem isSolutionPossible_exists {cfg : CsiConfig σ} {st : CsiState σ} {vam : Vam}
    (h : isSolutionPossible cfg st vam = true) :
    ∃ i ∈ st.vNotX, 0 < (vam i).length := by
  rw [isSolutionPossible] at h
  split at h
  · exact absurd h (by simp)
  · exact solutionPossibleLoop_exists cfg vam st.minimumSolutionSize st.x.length st.vNotX h

/-- The vertex chosen by `pickVertex` is a still-available vertex with a
nonempty row, provided a nonempty row exists and all rows are shorter than
the `size_t(-1)` sentinel (true whenever `g2` fits a 64-bit platform). -/
theorem pickVertex_of_possible {cfg : CsiConfig σ} {st : CsiState σ} {vam : Vam}
    (hn2 : cfg.g2.nVertices < sizeTSentinel) (hRB : RowBound cfg vam)
    (h : isSolutionPossible cfg st vam = true) :
    pickVertex vam st.vNotX ∈ st.vNotX ∧ 0 < (vam (pickVertex vam st.vNotX)).length := by
  obtain ⟨i0, hmem, hpos⟩ := isSolutionPossible_exists h
  exact pickVertex_mem hmem hpos (lt_of_le_of_lt (hRB i0) hn2)

theorem rowBound_initializeVam {cfg : CsiConfig σ} {st : CsiState σ}
    (hw : st.w.length ≤ cfg.g2.nVertices) :
    RowBound cfg (initializeVam cfg st) := by
  intro i
  rw [initializeVam]
  split
  · exact le_trans (List.length_filter_le _ _) hw
  · exact Nat.zero_le _

theorem rowBound_refine {cfg : CsiConfig σ} {st : CsiState σ} {vam : Vam}
    (h : RowBound cfg vam) :
    RowBound cfg (refine cfg st vam) := by
  intro i
  rw [refine]
  split
  · exact le_trans (List.length_filter_le _ _) (h i)
  · exact Nat.zero_le _

/-! ## Fields unchanged by `reportSolution` -/

theorem reportSolution_fields (cfg : CsiConfig σ) (st : CsiState σ) :
    (reportSolution cfg st).2.1.x = st.x ∧ (reportSolution cfg st).2.1.y = st.y ∧
      (reportSolution cfg st).2.1.v = st.v ∧ (reportSolution cfg st).2.1.vNotX = st.vNotX ∧
      (reportSolution cfg st).2.1.w = st.w ∧
      (reportSolution cfg st).2.1.maximumSolutionSize = st.maximumSolutionSize := by
  rw [reportSolution]
  split <;> exact ⟨rfl, rfl, rfl, rfl, rfl, rfl⟩

end Sawyer

namespace Sawyer

/-! ## Restoration of `x`, `y`, `v`, `vNotX` on the `CSI_CONTINUE` path -/

theorem tryCandidates_restores (cfg : CsiConfig σ) (rec : CsiState σ → Vam → RecResult σ)
    (vam : Vam) (i : Nat)
    (hrec : ∀ s va, StInv s.v s.vNotX s.x → RowBound cfg va →
      (rec s va).1 = CsiNextAction.CSI_CONTINUE →
      (rec s va).2.1.x = s.x ∧ (rec s va).2.1.y = s.y ∧ (rec s va).2.1.v = s.v ∧
        (rec s va).2.1.vNotX = s.vNotX) :
    ∀ (js : List Nat) (st : CsiState σ), StInv st.v st.vNotX st.x → RowBound cfg vam →
      i ∈ st.vNotX →
      (tryCandidates cfg rec st vam i js).1 = CsiNextAction.CSI_CONTINUE →
      (tryCandidates cfg rec st vam i js).2.1.x = st.x ∧
        (tryCandidates cfg rec st vam i js).2.1.y = st.y ∧
        (tryCandidates cfg rec st vam i js).2.1.v = st.v ∧
        (tryCandidates cfg rec st vam i js).2.1.vNotX = st.vNotX := by
  intro js
  induction js with
  | nil =>
    intro st _ _ _ _
    simp [tryCandidates]
  | cons j js ih =>
    intro st hSt hRB hi hres
    have hStE : StInv (extendSolution st i j).v (extendSolution st i j).vNotX
        (extendSolution st i j).x := by
      simpa [extendSolution] using stInv_extend hSt hi
    have hRBr : RowBound cfg (refine cfg (extendSolution st i j) vam) := rowBound_refine hRB
    simp only [tryCandidates] at hres ⊢
    cases hact : (rec (extendSolution st i j) (refine cfg (extendSolution st i j) vam)).1 with
    | CSI_ABORT =>
      rw [hact] at hres
      simp [hact] at hres
    | CSI_CONTINUE =>
      rw [hact] at hres
      dsimp only at hres ⊢
      obtain ⟨h1x, h1y, h1v, h1n⟩ :=
        hrec (extendSolution st i j) (refine cfg (extendSolution st i j) vam) hStE hRBr hact
      have h2x : (retractSolution
          ((rec (extendSolution st i j) (refine cfg (extendSolution st i j) vam)).2.1)).x
          = st.x := by
        simp only [retractSolution]
        rw [h1x]
        simp [extendSolution]
      have h2y : (retractSolution
          ((rec (extendSolution st i j) (refine cfg (extendSolution st i j) vam)).2.1)).y
          = st.y := by
        simp only [retractSolution]
        rw [h1y]
        simp [extendSolution]
      have h2v : (retractSolution
          ((rec (extendSolution st i j) (refine cfg (extendSolution st i j) vam)).2.1)).v
          = st.v := by
        simp only [retractSolution]
        rw [h1v]
        simp [extendSolution]
      have h2n : (retractSolution
          ((rec (extendSolution st i j) (refine cfg (extendSolution st i j) vam)).2.1)).vNotX
          = st.vNotX := by
        simp only [retractSolution]
        rw [h1n, h1x]
        simp only [extendSolution]
        rw [List.getLastD_concat]
        exact orderedInsert_erase i st.vNotX hi hSt.2.1
      have hSt2 : StInv
          (retractSolution
            ((rec (extendSolution st i j) (refine cfg (extendSolution st i j) vam)).2.1)).v
          (retractSolution
            ((rec (extendSolution st i j) (refine cfg (extendSolution st i j) vam)).2.1)).vNotX
          (retractSolution
            ((rec (extendSolution st i j) (refine cfg (extendSolution st i j) vam)).2.1)).x := by
        rw [h2x, h2v, h2n]; exact hSt
      have hi2 : i ∈ (retractSolution
          ((rec (extendSolution st i j) (refine cfg (extendSolution st i j) vam)).2.1)).vNotX := by
        rw [h2n]; exact hi
      have h3 := ih (retractSolution
        ((rec (extendSolution st i j) (refine cfg (extendSolution st i j) vam)).2.1))
        hSt2 hRB hi2 hres
      rw [h2x, h2y, h2v, h2n] at h3
      exact h3

theorem recurse_restores (cfg : CsiConfig σ) (hn2 : cfg.g2.nVertices < sizeTSentinel) :
    ∀ (fuel : Nat) (st : CsiState σ) (vam : Vam), StInv st.v st.vNotX st.x → RowBound cfg vam →
      (recurse cfg fuel st vam).1 = CsiNextAction.CSI_CONTINUE →
      (recurse cfg fuel st vam).2.1.x = st.x ∧ (recurse cfg fuel st vam).2.1.y = st.y ∧
        (recurse cfg fuel st vam).2.1.v = st.v ∧
        (recurse cfg fuel st vam).2.1.vNotX = st.vNotX := by
  intro fuel
  induction fuel with
  | zero =>
    intro st vam _ _ _
    simp [recurse]
  | succ fuel ih =>
    intro st vam hSt hRB hres
    simp only [recurse] at hres ⊢
    by_cases hposs : isSolutionPossible cfg st vam = true
    · rw [if_pos hposs] at hres ⊢
      obtain ⟨hpickmem, hpickpos⟩ := pickVertex_of_possible hn2 hRB hposs
      cases hact1 : (tryCandidates cfg (fun s va => recurse cfg fuel s va) st vam
          (pickVertex vam st.vNotX) (vam (pickVertex vam st.vNotX))).1 with
      | CSI_ABORT =>
        rw [hact1] at hres
        simp [hact1] at hres
      | CSI_CONTINUE =>
        rw [hact1] at hres
        dsimp only at hres ⊢
        obtain ⟨h1x, h1y, h1v, h1n⟩ := tryCandidates_restores cfg
          (fun s va => recurse cfg fuel s va) vam (pickVertex vam st.vNotX)
          (fun s va a b c => ih s va a b c)
          (vam (pickVertex vam st.vNotX)) st hSt hRB hpickmem hact1
        by_cases hcommon : cfg.findingCommonSubgraphs = true
        · rw [if_pos hcommon] at hres ⊢
          cases hact2 : (recurse cfg fuel
              { (tryCandidates cfg (fun s va => recurse cfg fuel s va) st vam
                  (pickVertex vam st.vNotX) (vam (pickVertex vam st.vNotX))).2.1 with
                v := (tryCandidates cfg (fun s va => recurse cfg fuel s va) st vam
                  (pickVertex vam st.vNotX) (vam (pickVertex vam st.vNotX))).2.1.v.erase
                    (pickVertex vam st.vNotX),
                vNotX := (tryCandidates cfg (fun s va => recurse cfg fuel s va) st vam
                  (pickVertex vam st.vNotX) (vam (pickVertex vam st.vNotX))).2.1.vNotX.erase
                    (pickVertex vam st.vNotX) } vam).1 with
          | CSI_ABORT =>
            rw [hact2] at hres
            simp [hact2] at hres
          | CSI_CONTINUE =>
            dsimp only at hres ⊢
            have hSt2 : StInv
                ((tryCandidates cfg (fun s va => recurse cfg fuel s va) st vam
                  (pickVertex vam st.vNotX) (vam (pickVertex vam st.vNotX))).2.1.v.erase
                    (pickVertex vam st.vNotX))
                ((tryCandidates cfg (fun s va => recurse cfg fuel s va) st vam
                  (pickVertex vam st.vNotX) (vam (pickVertex vam st.vNotX))).2.1.vNotX.erase
                    (pickVertex vam st.vNotX))
                ((tryCandidates cfg (fun s va => recurse cfg fuel s va) st vam
                  (pickVertex vam st.vNotX) (vam (pickVertex vam st.vNotX))).2.1.x) := by
              rw [h1x, h1v, h1n]
              exact stInv_erase_both hSt hpickmem
            obtain ⟨h2x, h2y, h2v, h2n⟩ := ih
              ({ (tryCandidates cfg (fun s va => recurse cfg fuel s va) st vam
                  (pickVertex vam st.vNotX) (vam (pickVertex vam st.vNotX))).2.1 with
                v := (tryCandidates cfg (fun s va => recurse cfg fuel s va) st vam
                  (pickVertex vam st.vNotX) (vam (pickVertex vam st.vNotX))).2.1.v.erase
                    (pickVertex vam st.vNotX),
                vNotX := (tryCandidates cfg (fun s va => recurse cfg fuel s va) st vam
                  (pickVertex vam st.vNotX) (vam (pickVertex vam st.vNotX))).2.1.vNotX.erase
                    (pickVertex vam st.vNotX) }) vam hSt2 hRB hact2
            dsimp only at h2x h2y h2v h2n
            refine ⟨h2x.trans h1x, h2y.trans h1y, ?_, ?_⟩
            · rw [h2v, h1v]
              exact orderedInsert_erase _ st.v (hSt.2.2.1 _ hpickmem) hSt.1
            · rw [h2n, h1n]
              exact orderedInsert_erase _ st.vNotX hpickmem hSt.2.1
        · rw [if_neg hcommon] at hres ⊢
          exact ⟨h1x, h1y, h1v, h1n⟩
    · rw [if_neg hposs] at hres ⊢
      by_cases hvalid : isSolutionValidSize cfg st = true
      · rw [if_pos hvalid] at hres ⊢
        obtain ⟨hx, hy, hv, hn, _, _⟩ := reportSolution_fields cfg st
        exact ⟨hx, hy, hv, hn⟩
      · rw [if_neg hvalid] at hres ⊢
        exact ⟨rfl, rfl, rfl, rfl⟩

end Sawyer

namespace Sawyer

/-! ## Fields that evolve monotonically through the search -/

/-- Relation between the engine state at entry and at return of any
search step: `w` and the maximum size never change, and in common-subgraph
mode the minimum size never decreases (it is only ever raised, to the size
of a just-reported solution, which the validity check bounds below by the
current minimum). -/
def StableStep (cfg : CsiConfig σ) (st st' : CsiState σ) : Prop :=
  st'.w = st.w ∧ st'.maximumSolutionSize = st.maximumSolutionSize ∧
    (cfg.findingCommonSubgraphs = true →
      st.minimumSolutionSize ≤ st'.minimumSolutionSize)

theorem stableStep_refl (cfg : CsiConfig σ) (st : CsiState σ) : StableStep cfg st st :=
  ⟨rfl, rfl, fun _ => Nat.le_refl _⟩

theorem stableStep_trans {cfg : CsiConfig σ} {s1 s2 s3 : CsiState σ}
    (h1 : StableStep cfg s1 s2) (h2 : StableStep cfg s2 s3) : StableStep cfg s1 s3 :=
  ⟨h2.1.trans h1.1, h2.2.1.trans h1.2.1,
    fun hc => Nat.le_trans (h1.2.2 hc) (h2.2.2 hc)⟩

theorem stableStep_extend (cfg : CsiConfig σ) (st : CsiState σ) (i j : Nat) :
    StableStep cfg st (extendSolution st i j) :=
  ⟨rfl, rfl, fun _ => Nat.le_refl _⟩

theorem stableStep_retract (cfg : CsiConfig σ) (st : CsiState σ) :
    StableStep cfg st (retractSolution st) :=
  ⟨rfl, rfl, fun _ => Nat.le_refl _⟩

theorem isSolutionValidSize_common {cfg : CsiConfig σ} {st : CsiState σ}
    (hc : cfg.findingCommonSubgraphs = true) (h : isSolutionValidSize cfg st = true) :
    st.minimumSolutionSize ≤ st.x.length ∧ st.x.length ≤ st.maximumSolutionSize := by
  rw [isSolutionValidSize, if_pos hc] at h
  simpa using h

theorem isSolutionValidSize_plain {cfg : CsiConfig σ} {st : CsiState σ}
    (hc : cfg.findingCommonSubgraphs = false) (h : isSolutionValidSize cfg st = true) :
    st.x.length = cfg.g1.nVertices := by
  rw [isSolutionValidSize, if_neg (by simp [hc])] at h
  simpa using h

theorem stableStep_report {cfg : CsiConfig σ} {st : CsiState σ}
    (hvalid : isSolutionValidSize cfg st = true) :
    StableStep cfg st (reportSolution cfg st).2.1 := by
  by_cases hm : cfg.monotonicallyIncreasing = true
  · refine ⟨by simp [reportSolution, hm], by simp [reportSolution, hm], fun hc => ?_⟩
    have hmin : (reportSolution cfg st).2.1.minimumSolutionSize = st.x.length := by
      simp [reportSolution, hm]
    rw [hmin]
    exact (isSolutionValidSize_common hc hvalid).1
  · exact ⟨by simp [reportSolution, hm], by simp [reportSolution, hm],
      fun _ => by simp [reportSolution, hm]⟩

theorem tryCandidates_stable (cfg : CsiConfig σ) (rec : CsiState σ → Vam → RecResult σ)
    (vam : Vam) (i : Nat)
    (hrec : ∀ s va, StableStep cfg s (rec s va).2.1) :
    ∀ (js : List Nat) (st : CsiState σ),
      StableStep cfg st (tryCandidates cfg rec st vam i js).2.1 := by
  intro js
  induction js with
  | nil =>
    intro st
    simp only [tryCandidates]
    exact stableStep_refl cfg st
  | cons j js ih =>
    intro st
    simp only [tryCandidates]
    cases hact : (rec (extendSolution st i j) (refine cfg (extendSolution st i j) vam)).1 with
    | CSI_ABORT =>
      dsimp only
      exact stableStep_trans (stableStep_extend cfg st i j)
        (hrec (extendSolution st i j) (refine cfg (extendSolution st i j) vam))
    | CSI_CONTINUE =>
      dsimp only
      refine stableStep_trans (stableStep_trans (stableStep_trans
        (stableStep_extend cfg st i j)
        (hrec (extendSolution st i j) (refine cfg (extendSolution st i j) vam)))
        (stableStep_retract cfg _)) (ih _)

theorem recurse_stable (cfg : CsiConfig σ) :
    ∀ (fuel : Nat) (st : CsiState σ) (vam : Vam),
      StableStep cfg st (recurse cfg fuel st vam).2.1 := by
  intro fuel
  induction fuel with
  | zero =>
    intro st vam
    simp only [recurse]
    exact stableStep_refl cfg st
  | succ fuel ih =>
    intro st vam
    simp only [recurse]
    by_cases hposs : isSolutionPossible cfg st vam = true
    · rw [if_pos hposs]
      have hT := tryCandidates_stable cfg (fun s va => recurse cfg fuel s va) vam
        (pickVertex vam st.vNotX) (fun s va => ih s va) (vam (pickVertex vam st.vNotX)) st
      cases hact1 : (tryCandidates cfg (fun s va => recurse cfg fuel s va) st vam
          (pickVertex vam st.vNotX) (vam (pickVertex vam st.vNotX))).1 with
      | CSI_ABORT =>
        dsimp only
        exact hT
      | CSI_CONTINUE =>
        dsimp only
        by_cases hcommon : cfg.findingCommonSubgraphs = true
        · rw [if_pos hcommon]
          have hArg : StableStep cfg
              ((tryCandidates cfg (fun s va => recurse cfg fuel s va) st vam
                (pickVertex vam st.vNotX) (vam (pickVertex vam st.vNotX))).2.1)
              ({ (tryCandidates cfg (fun s va => recurse cfg fuel s va) st vam
                  (pickVertex vam st.vNotX) (vam (pickVertex vam st.vNotX))).2.1 with
                v := (tryCandidates cfg (fun s va => recurse cfg fuel s va) st vam
                  (pickVertex vam st.vNotX) (vam (pickVertex vam st.vNotX))).2.1.v.erase
                    (pickVertex vam st.vNotX),
                vNotX := (tryCandidates cfg (fun s va => recurse cfg fuel s va) st vam
                  (pickVertex vam st.vNotX) (vam (pickVertex vam st.vNotX))).2.1.vNotX.erase
                    (pickVertex vam st.vNotX) }) :=
            ⟨rfl, rfl, fun _ => Nat.le_refl _⟩
          have hR2 := ih ({ (tryCandidates cfg (fun s va => recurse cfg fuel s va) st vam
                  (pickVertex vam st.vNotX) (vam (pickVertex vam st.vNotX))).2.1 with
                v := (tryCandidates cfg (fun s va => recurse cfg fuel s va) st vam
                  (pickVertex vam st.vNotX) (vam (pickVertex vam st.vNotX))).2.1.v.erase
                    (pickVertex vam st.vNotX),
                vNotX := (tryCandidates cfg (fun s va => recurse cfg fuel s va) st vam
                  (pickVertex vam st.vNotX) (vam (pickVertex vam st.vNotX))).2.1.vNotX.erase
                    (pickVertex vam st.vNotX) }) vam
          cases hact2 : (recurse cfg fuel
              { (tryCandidates cfg (fun s va => recurse cfg fuel s va) st vam
                  (pickVertex vam st.vNotX) (vam (pickVertex vam st.vNotX))).2.1 with
                v := (tryCandidates cfg (fun s va => recurse cfg fuel s va) st vam
                  (pickVertex vam st.vNotX) (vam (pickVertex vam st.vNotX))).2.1.v.erase
                    (pickVertex vam st.vNotX),
                vNotX := (tryCandidates cfg (fun s va => recurse cfg fuel s va) st vam
                  (pickVertex vam st.vNotX) (vam (pickVertex vam st.vNotX))).2.1.vNotX.erase
                    (pickVertex vam st.vNotX) } vam).1 with
          | CSI_ABORT =>
            dsimp only
            exact stableStep_trans hT (stableStep_trans hArg hR2)
          | CSI_CONTINUE =>
            dsimp only
            exact stableStep_trans hT (stableStep_trans hArg
              (stableStep_trans hR2 ⟨rfl, rfl, fun _ => Nat.le_refl _⟩))
        · rw [if_neg hcommon]
          exact hT
    · rw [if_neg hposs]
      by_cases hvalid : isSolutionValidSize cfg st = true
      · rw [if_pos hvalid]
        exact stableStep_report hvalid
      · rw [if_neg hvalid]
        exact stableStep_refl cfg st

end Sawyer

namespace Sawyer

/-! ## The solution invariant carried by the search -/

theorem edgesAreSuitable_counts {cfg : CsiConfig σ} {i iU j jU : Nat}
    (h : edgesAreSuitable cfg i iU j jU = true) :
    edgeCount cfg.g1 i iU = edgeCount cfg.g2 j jU ∧
      edgeCount cfg.g1 iU i = edgeCount cfg.g2 jU j := by
  rw [edgesAreSuitable] at h
  dsimp only at h
  split at h
  · exact absurd h (by simp)
  next h1 =>
    split at h
    · exact absurd h (by simp)
    next h2 =>
      have e1 : (findEdges cfg.g1 i iU).length = (findEdges cfg.g2 j jU).length := by
        simpa using h1
      have e2 : (findEdges cfg.g1 i iU).length + (findEdges cfg.g1 iU i).length
          = (findEdges cfg.g2 j jU).length + (findEdges cfg.g2 jU j).length := by
        simpa [List.length_append] using h2
      exact ⟨e1, by unfold edgeCount; omega⟩

theorem getD_concat_lt {l : List Nat} (a : Nat) {k : Nat} (h : k < l.length) :
    (l ++ [a]).getD k 0 = l.getD k 0 :=
  List.getD_append l [a] 0 k h

theorem getD_concat_len {l : List Nat} (a : Nat) : (l ++ [a]).getD l.length 0 = a := by
  rw [List.getD_append_right l [a] 0 l.length (Nat.le_refl _)]
  simp

/-- Pairwise structural soundness of the two committed vectors: matching
edge counts between every committed pair, in both directions. -/
def PairsOk (cfg : CsiConfig σ) (x y : List Nat) : Prop :=
  ∀ p q, p < q → q < x.length →
    edgeCount cfg.g1 (x.getD p 0) (x.getD q 0) = edgeCount cfg.g2 (y.getD p 0) (y.getD q 0) ∧
    edgeCount cfg.g1 (x.getD q 0) (x.getD p 0) = edgeCount cfg.g2 (y.getD q 0) (y.getD p 0)

/-- Matching self-loop edge counts at every committed pair. -/
def SelfLoopsOk (cfg : CsiConfig σ) (x y : List Nat) : Prop :=
  ∀ p, p < x.length →
    edgeCount cfg.g1 (x.getD p 0) (x.getD p 0) = edgeCount cfg.g2 (y.getD p 0) (y.getD p 0)

/-- Every committed pair satisfies the `mu` predicate. -/
def MuOk (cfg : CsiConfig σ) (x y : List Nat) : Prop :=
  ∀ p, p < x.length → cfg.mu (x.getD p 0) (y.getD p 0) = true

/-- Soundness of a VAM relative to the committed solution: every candidate
pair `(i, j)` of the VAM satisfies `mu`, matches self-loop counts, avoids
the already-used `g2` vertices, and matches edge counts against every
committed pair in both directions. -/
def VamOk (cfg : CsiConfig σ) (x y vNotX : List Nat) (vam : Vam) : Prop :=
  ∀ i ∈ vNotX, ∀ j ∈ vam i,
    cfg.mu i j = true ∧
    edgeCount cfg.g1 i i = edgeCount cfg.g2 j j ∧
    j ∉ y ∧
    (∀ k, k < x.length →
      edgeCount cfg.g1 (x.getD k 0) i = edgeCount cfg.g2 (y.getD k 0) j ∧
      edgeCount cfg.g1 i (x.getD k 0) = edgeCount cfg.g2 j (y.getD k 0))

/-- The full invariant of a `recurse` invocation. -/
def Inv (cfg : CsiConfig σ) (st : CsiState σ) (vam : Vam) : Prop :=
  StInv st.v st.vNotX st.x ∧ RowBound cfg vam ∧
    st.x.length = st.y.length ∧ st.x.Nodup ∧ st.y.Nodup ∧
    MuOk cfg st.x st.y ∧ PairsOk cfg st.x st.y ∧ SelfLoopsOk cfg st.x st.y ∧
    VamOk cfg st.x st.y st.vNotX vam

/-- What claims C1 and C2 assert of one reported solution. -/
def GoodSol (cfg : CsiConfig σ) (sol : Solution) : Prop :=
  sol.1.length = sol.2.length ∧ sol.1.Nodup ∧ sol.2.Nodup ∧
    MuOk cfg sol.1 sol.2 ∧ PairsOk cfg sol.1 sol.2 ∧ SelfLoopsOk cfg sol.1 sol.2

theorem inv_of_fields {cfg : CsiConfig σ} {st st' : CsiState σ} {vam : Vam}
    (hInv : Inv cfg st vam) (hx : st'.x = st.x) (hy : st'.y = st.y)
    (hv : st'.v = st.v) (hn : st'.vNotX = st.vNotX) : Inv cfg st' vam := by
  unfold Inv
  rw [hx, hy, hv, hn]
  exact hInv

theorem retract_fields {σ : Type} (R st : CsiState σ) (i j : Nat)
    (hx : R.x = st.x ++ [i]) (hy : R.y = st.y ++ [j]) (hv : R.v = st.v)
    (hn : R.vNotX = st.vNotX.erase i) (hi : i ∈ st.vNotX)
    (hs : st.vNotX.Sorted (· < ·)) :
    (retractSolution R).x = st.x ∧ (retractSolution R).y = st.y ∧
      (retractSolution R).v = st.v ∧ (retractSolution R).vNotX = st.vNotX := by
  refine ⟨?_, ?_, ?_, ?_⟩ <;> simp only [retractSolution]
  · rw [hx]; simp
  · rw [hy]; simp
  · exact hv
  · rw [hn, hx, List.getLastD_concat]
    exact orderedInsert_erase i st.vNotX hi hs

end Sawyer

namespace Sawyer

theorem inv_extend {cfg : CsiConfig σ} {st : CsiState σ} {vam : Vam} {i j : Nat}
    (hInv : Inv cfg st vam) (hi : i ∈ st.vNotX) (hj : j ∈ vam i) :
    Inv cfg (extendSolution st i j) (refine cfg (extendSolution st i j) vam) := by
  obtain ⟨hSt, hRB, hlen, hndx, hndy, hmu, hpairs, hself, hvam⟩ := hInv
  obtain ⟨hmuij, hselfij, hjy, hks⟩ := hvam i hi j hj
  have hix : i ∉ st.x := hSt.2.2.2.2 i hi
  refine ⟨?_, rowBound_refine hRB, ?_, ?_, ?_, ?_, ?_, ?_, ?_⟩
  · simpa [extendSolution] using stInv_extend hSt hi
  · simp [extendSolution, hlen]
  · simp [extendSolution, List.nodup_append, hndx, hix]
  · simp [extendSolution, List.nodup_append, hndy, hjy]
  · show MuOk cfg (st.x ++ [i]) (st.y ++ [j])
    intro p hp
    rw [List.length_append, List.length_singleton] at hp
    rcases Nat.lt_or_ge p st.x.length with h | h
    · rw [getD_concat_lt i h, getD_concat_lt j (hlen ▸ h)]
      exact hmu p h
    · have hp' : p = st.x.length := by omega
      subst hp'
      rw [getD_concat_len i, hlen, getD_concat_len j]
      exact hmuij
  · show PairsOk cfg (st.x ++ [i]) (st.y ++ [j])
    intro p q hpq hq
    rw [List.length_append, List.length_singleton] at hq
    rcases Nat.lt_or_ge q st.x.length with h | h
    · have hp : p < st.x.length := Nat.lt_trans hpq h
      have hqy : q < st.y.length := by omega
      have hpy : p < st.y.length := by omega
      rw [getD_concat_lt i h, getD_concat_lt i hp, getD_concat_lt j hqy,
        getD_concat_lt j hpy]
      exact hpairs p q hpq h
    · have hq' : q = st.x.length := by omega
      subst hq'
      have hp : p < st.x.length := hpq
      have hpy : p < st.y.length := by omega
      rw [getD_concat_len i, getD_concat_lt i hp, getD_concat_lt j hpy, hlen,
        getD_concat_len j]
      exact hks p hp
  · show SelfLoopsOk cfg (st.x ++ [i]) (st.y ++ [j])
    intro p hp
    rw [List.length_append, List.length_singleton] at hp
    rcases Nat.lt_or_ge p st.x.length with h | h
    · rw [getD_concat_lt i h, getD_concat_lt j (hlen ▸ h)]
      exact hself p h
    · have hp' : p = st.x.length := by omega
      subst hp'
      rw [getD_concat_len i, hlen, getD_concat_len j]
      exact hselfij
  · show VamOk cfg (st.x ++ [i]) (st.y ++ [j]) (st.vNotX.erase i)
      (refine cfg (extendSolution st i j) vam)
    intro i2 hi2 j2 hj2
    have hi2mem : i2 ∈ st.vNotX := List.mem_of_mem_erase hi2
    rw [refine, if_pos (show i2 ∈ (extendSolution st i j).vNotX from hi2)] at hj2
    rcases List.mem_filter.mp hj2 with ⟨hj2vam, hpred⟩
    have hyLast : (extendSolution st i j).y.getLastD 0 = j := by
      simp [extendSolution, List.getLastD_concat]
    have hxLast : (extendSolution st i j).x.getLastD 0 = i := by
      simp [extendSolution, List.getLastD_concat]
    rw [hyLast, hxLast, Bool.and_eq_true] at hpred
    obtain ⟨hne, hsuit⟩ := hpred
    have hne2 : j2 ≠ j := by simpa using hne
    obtain ⟨hcnt1, hcnt2⟩ := edgesAreSuitable_counts hsuit
    obtain ⟨hmu2, hself2, hjy2, hks2⟩ := hvam i2 hi2mem j2 hj2vam
    refine ⟨hmu2, hself2, ?_, ?_⟩
    · intro hmem
      rcases List.mem_append.mp hmem with h | h
      · exact hjy2 h
      · exact hne2 (List.mem_singleton.mp h)
    · intro k hk
      rw [List.length_append, List.length_singleton] at hk
      rcases Nat.lt_or_ge k st.x.length with h | h
      · rw [getD_concat_lt i h, getD_concat_lt j (hlen ▸ h)]
        exact hks2 k h
      · have hk' : k = st.x.length := by omega
        subst hk'
        rw [getD_concat_len i, hlen, getD_concat_len j]
        exact ⟨hcnt1, hcnt2⟩

theorem inv_exclude {cfg : CsiConfig σ} {st : CsiState σ} {vam : Vam} {i : Nat}
    (hInv : Inv cfg st vam) (hi : i ∈ st.vNotX) :
    Inv cfg { st with v := st.v.erase i, vNotX := st.vNotX.erase i } vam := by
  obtain ⟨hSt, hRB, hlen, hndx, hndy, hmu, hpairs, hself, hvam⟩ := hInv
  refine ⟨stInv_erase_both hSt hi, hRB, hlen, hndx, hndy, hmu, hpairs, hself, ?_⟩
  intro i2 hi2 j2 hj2
  exact hvam i2 (List.mem_of_mem_erase hi2) j2 hj2

theorem inv_initial (cfg : CsiConfig σ) (st0 : CsiState σ) :
    Inv cfg (reset cfg st0) (initializeVam cfg (reset cfg st0)) := by
  refine ⟨⟨?_, ?_, ?_, ?_, ?_⟩, ?_, ?_, ?_, ?_, ?_, ?_, ?_, ?_⟩
  · exact List.sorted_lt_range _
  · exact List.sorted_lt_range _
  · intro a ha; exact ha
  · intro a ha; simp [reset] at ha
  · intro a _ hax; simp [reset] at hax
  · exact rowBound_initializeVam (by simp [reset])
  · rfl
  · simp [reset]
  · simp [reset]
  · intro p hp; simp [reset] at hp
  · intro p q _ hq; simp [reset] at hq
  · intro p hp; simp [reset] at hp
  · intro i hi j hj
    have hiv : i ∈ (reset cfg st0).v := hi
    rw [initializeVam, if_pos hiv] at hj
    rcases List.mem_filter.mp hj with ⟨hjw, hpred⟩
    dsimp only at hpred
    rw [Bool.and_eq_true, Bool.and_eq_true] at hpred
    obtain ⟨⟨hselfeq, hmuij⟩, _⟩ := hpred
    refine ⟨hmuij, ?_, ?_, ?_⟩
    · simpa [edgeCount] using hselfeq
    · intro hmem
      simp [reset] at hmem
    · intro k hk
      simp [reset] at hk

end Sawyer

namespace Sawyer

/-- The size policy a reported solution satisfies, relative to the bounds
in force when the reporting subtree was entered. -/
def SolBounds (cfg : CsiConfig σ) (st : CsiState σ) (sol : Solution) : Prop :=
  (cfg.findingCommonSubgraphs = true →
    st.minimumSolutionSize ≤ sol.1.length ∧ sol.1.length ≤ st.maximumSolutionSize) ∧
  (cfg.findingCommonSubgraphs = false → sol.1.length = cfg.g1.nVertices)

theorem solBounds_weaken {cfg : CsiConfig σ} {st st' : CsiState σ} {sol : Solution}
    (h : SolBounds cfg st' sol)
    (hmin : cfg.findingCommonSubgraphs = true →
      st.minimumSolutionSize ≤ st'.minimumSolutionSize)
    (hmax : st'.maximumSolutionSize = st.maximumSolutionSize) :
    SolBounds cfg st sol := by
  refine ⟨fun hc => ?_, h.2⟩
  obtain ⟨hlo, hhi⟩ := h.1 hc
  exact ⟨Nat.le_trans (hmin hc) hlo, hmax ▸ hhi⟩

theorem tryCandidates_sound (cfg : CsiConfig σ) (rec : CsiState σ → Vam → RecResult σ)
    (vam : Vam) (i : Nat)
    (hrecRestore : ∀ s va, StInv s.v s.vNotX s.x → RowBound cfg va →
      (rec s va).1 = CsiNextAction.CSI_CONTINUE →
      (rec s va).2.1.x = s.x ∧ (rec s va).2.1.y = s.y ∧ (rec s va).2.1.v = s.v ∧
        (rec s va).2.1.vNotX = s.vNotX)
    (hrecStable : ∀ s va, StableStep cfg s (rec s va).2.1)
    (hrecSound : ∀ s va, Inv cfg s va →
      ∀ sol ∈ (rec s va).2.2, GoodSol cfg sol ∧ SolBounds cfg s sol) :
    ∀ (js : List Nat) (st : CsiState σ), Inv cfg st vam → i ∈ st.vNotX →
      (∀ j ∈ js, j ∈ vam i) →
      ∀ sol ∈ (tryCandidates cfg rec st vam i js).2.2,
        GoodSol cfg sol ∧ SolBounds cfg st sol := by
  intro js
  induction js with
  | nil =>
    intro st _ _ _ sol hsol
    simp [tryCandidates] at hsol
  | cons j js ih =>
    intro st hInv hi hrow sol hsol
    have hInvE : Inv cfg (extendSolution st i j) (refine cfg (extendSolution st i j) vam) :=
      inv_extend hInv hi (hrow j (List.mem_cons_self j js))
    simp only [tryCandidates] at hsol
    cases hact : (rec (extendSolution st i j) (refine cfg (extendSolution st i j) vam)).1 with
    | CSI_ABORT =>
      rw [hact] at hsol
      dsimp only at hsol
      obtain ⟨hgood, hbounds⟩ := hrecSound (extendSolution st i j)
        (refine cfg (extendSolution st i j) vam) hInvE sol hsol
      exact ⟨hgood, hbounds⟩
    | CSI_CONTINUE =>
      rw [hact] at hsol
      dsimp only at hsol
      rcases List.mem_append.mp hsol with hmem | hmem
      · obtain ⟨hgood, hbounds⟩ := hrecSound (extendSolution st i j)
          (refine cfg (extendSolution st i j) vam) hInvE sol hmem
        exact ⟨hgood, hbounds⟩
      · obtain ⟨h1x, h1y, h1v, h1n⟩ := hrecRestore (extendSolution st i j)
          (refine cfg (extendSolution st i j) vam) hInvE.1 hInvE.2.1 hact
        obtain ⟨hr2x, hr2y, hr2v, hr2n⟩ := retract_fields
          ((rec (extendSolution st i j) (refine cfg (extendSolution st i j) vam)).2.1)
          st i j h1x h1y h1v h1n hi hInv.1.2.1
        have hInv2 : Inv cfg (retractSolution
            ((rec (extendSolution st i j) (refine cfg (extendSolution st i j) vam)).2.1))
            vam := inv_of_fields hInv hr2x hr2y hr2v hr2n
        have hi2 : i ∈ (retractSolution
            ((rec (extendSolution st i j) (refine cfg (extendSolution st i j) vam)).2.1)).vNotX := by
          rw [hr2n]; exact hi
        obtain ⟨hgood, hbounds⟩ := ih (retractSolution
            ((rec (extendSolution st i j) (refine cfg (extendSolution st i j) vam)).2.1))
          hInv2 hi2 (fun a ha => hrow a (List.mem_cons_of_mem j ha)) sol hmem
        refine ⟨hgood, solBounds_weaken hbounds (fun hc => ?_) ?_⟩
        · exact (hrecStable (extendSolution st i j)
            (refine cfg (extendSolution st i j) vam)).2.2 hc
        · exact (hrecStable (extendSolution st i j)
            (refine cfg (extendSolution st i j) vam)).2.1

theorem recurse_sound (cfg : CsiConfig σ) (hn2 : cfg.g2.nVertices < sizeTSentinel) :
    ∀ (fuel : Nat) (st : CsiState σ) (vam : Vam), Inv cfg st vam →
      ∀ sol ∈ (recurse cfg fuel st vam).2.2, GoodSol cfg sol ∧ SolBounds cfg st sol := by
  intro fuel
  induction fuel with
  | zero =>
    intro st vam _ sol hsol
    simp [recurse] at hsol
  | succ fuel ih =>
    intro st vam hInv sol hsol
    simp only [recurse] at hsol
    by_cases hposs : isSolutionPossible cfg st vam = true
    · rw [if_pos hposs] at hsol
      obtain ⟨hpickmem, hpickpos⟩ := pickVertex_of_possible hn2 hInv.2.1 hposs
      have hTsound := tryCandidates_sound cfg (fun s va => recurse cfg fuel s va) vam
        (pickVertex vam st.vNotX)
        (fun s va a b c => recurse_restores cfg hn2 fuel s va a b c)
        (fun s va => recurse_stable cfg fuel s va)
        (fun s va a sol2 hs => ih s va a sol2 hs)
        (vam (pickVertex vam st.vNotX)) st hInv hpickmem (fun a ha => ha)
      have hTrestore := tryCandidates_restores cfg (fun s va => recurse cfg fuel s va) vam
        (pickVertex vam st.vNotX)
        (fun s va a b c => recurse_restores cfg hn2 fuel s va a b c)
        (vam (pickVertex vam st.vNotX)) st hInv.1 hInv.2.1 hpickmem
      have hTstable := tryCandidates_stable cfg (fun s va => recurse cfg fuel s va) vam
        (pickVertex vam st.vNotX)
        (fun s va => recurse_stable cfg fuel s va)
        (vam (pickVertex vam st.vNotX)) st
      cases hact1 : (tryCandidates cfg (fun s va => recurse cfg fuel s va) st vam
          (pickVertex vam st.vNotX) (vam (pickVertex vam st.vNotX))).1 with
      | CSI_ABORT =>
        rw [hact1] at hsol
        dsimp only at hsol
        exact hTsound sol hsol
      | CSI_CONTINUE =>
        rw [hact1] at hsol
        dsimp only at hsol
        obtain ⟨h1x, h1y, h1v, h1n⟩ := hTrestore hact1
        by_cases hcommon : cfg.findingCommonSubgraphs = true
        · rw [if_pos hcommon] at hsol
          have hInvArg : Inv cfg
              ({ (tryCandidates cfg (fun s va => recurse cfg fuel s va) st vam
                  (pickVertex vam st.vNotX) (vam (pickVertex vam st.vNotX))).2.1 with
                v := (tryCandidates cfg (fun s va => recurse cfg fuel s va) st vam
                  (pickVertex vam st.vNotX) (vam (pickVertex vam st.vNotX))).2.1.v.erase
                    (pickVertex vam st.vNotX),
                vNotX := (tryCandidates cfg (fun s va => recurse cfg fuel s va) st vam
                  (pickVertex vam st.vNotX) (vam (pickVertex vam st.vNotX))).2.1.vNotX.erase
                    (pickVertex vam st.vNotX) }) vam := by
            refine inv_of_fields (inv_exclude hInv hpickmem) ?_ ?_ ?_ ?_ <;> (try dsimp only)
            · rw [h1x]
            · rw [h1y]
            · rw [h1v]
            · rw [h1n]
          cases hact2 : (recurse cfg fuel
              { (tryCandidates cfg (fun s va => recurse cfg fuel s va) st vam
                  (pickVertex vam st.vNotX) (vam (pickVertex vam st.vNotX))).2.1 with
                v := (tryCandidates cfg (fun s va => recurse cfg fuel s va) st vam
                  (pickVertex vam st.vNotX) (vam (pickVertex vam st.vNotX))).2.1.v.erase
                    (pickVertex vam st.vNotX),
                vNotX := (tryCandidates cfg (fun s va => recurse cfg fuel s va) st vam
                  (pickVertex vam st.vNotX) (vam (pickVertex vam st.vNotX))).2.1.vNotX.erase
                    (pickVertex vam st.vNotX) } vam).1 with
          | CSI_ABORT =>
            rw [hact2] at hsol
            dsimp only at hsol
            rcases List.mem_append.mp hsol with hmem | hmem
            · exact hTsound sol hmem
            · obtain ⟨hgood, hbounds⟩ := ih _ vam hInvArg sol hmem
              refine ⟨hgood, solBounds_weaken hbounds (fun hc => (hTstable.2.2 hc)) hTstable.2.1⟩
          | CSI_CONTINUE =>
            rw [hact2] at hsol
            dsimp only at hsol
            rcases List.mem_append.mp hsol with hmem | hmem
            · exact hTsound sol hmem
            · obtain ⟨hgood, hbounds⟩ := ih _ vam hInvArg sol hmem
              refine ⟨hgood, solBounds_weaken hbounds (fun hc => (hTstable.2.2 hc)) hTstable.2.1⟩
        · rw [if_neg hcommon] at hsol
          exact hTsound sol hsol
    · rw [if_neg hposs] at hsol
      by_cases hvalid : isSolutionValidSize cfg st = true
      · rw [if_pos hvalid] at hsol
        have hsol' : sol = (st.x, st.y) := by
          simp [reportSolution] at hsol
          exact hsol
        subst hsol'
        obtain ⟨hSt, hRB, hlen, hndx, hndy, hmu, hpairs, hself, hvam⟩ := hInv
        refine ⟨⟨hlen, hndx, hndy, hmu, hpairs, hself⟩, fun hc => ?_, fun hc => ?_⟩
        · exact isSolutionValidSize_common hc hvalid
        · exact isSolutionValidSize_plain hc hvalid
      · rw [if_neg hvalid] at hsol
        simp at hsol

end Sawyer

namespace Sawyer

/-! ## Order of reported solution sizes (monotonic mode) -/

/-- In common-subgraph monotonic mode: the trace of a subtree is
non-decreasing in size, bounded below by the minimum at entry and above by
the minimum at return (which the subtree only raises). -/
def ChainOut (minIn : Nat) (tr : List Solution) (minOut : Nat) : Prop :=
  List.Chain' (· ≤ ·) (tr.map (fun sol => sol.1.length)) ∧
    (∀ sol ∈ tr, minIn ≤ sol.1.length) ∧
    (∀ sol ∈ tr, sol.1.length ≤ minOut) ∧ minIn ≤ minOut

theorem chainOut_nil (m : Nat) : ChainOut m [] m :=
  ⟨List.chain'_nil, fun _ h => absurd h (List.not_mem_nil _),
    fun _ h => absurd h (List.not_mem_nil _), Nat.le_refl m⟩

theorem chainOut_append {m1 m2 m3 : Nat} {t1 t2 : List Solution}
    (h1 : ChainOut m1 t1 m2) (h2 : ChainOut m2 t2 m3) : ChainOut m1 (t1 ++ t2) m3 := by
  refine ⟨?_, ?_, ?_, Nat.le_trans h1.2.2.2 h2.2.2.2⟩
  · rw [List.map_append]
    refine List.Chain'.append h1.1 h2.1 ?_
    intro a ha b hb
    rcases List.mem_map.mp (List.mem_of_mem_getLast? ha) with ⟨s1, hs1, rfl⟩
    rcases List.mem_map.mp (List.mem_of_mem_head? hb) with ⟨s2, hs2, rfl⟩
    exact Nat.le_trans (h1.2.2.1 s1 hs1) (h2.2.1 s2 hs2)
  · intro s hs
    rcases List.mem_append.mp hs with h | h
    · exact h1.2.1 s h
    · exact Nat.le_trans h1.2.2.2 (h2.2.1 s h)
  · intro s hs
    rcases List.mem_append.mp hs with h | h
    · exact Nat.le_trans (h1.2.2.1 s h) h2.2.2.2
    · exact h2.2.2.1 s h

theorem tryCandidates_chainOut (cfg : CsiConfig σ) (rec : CsiState σ → Vam → RecResult σ)
    (vam : Vam) (i : Nat)
    (hrec : ∀ s va, ChainOut s.minimumSolutionSize (rec s va).2.2
      (rec s va).2.1.minimumSolutionSize) :
    ∀ (js : List Nat) (st : CsiState σ),
      ChainOut st.minimumSolutionSize (tryCandidates cfg rec st vam i js).2.2
        (tryCandidates cfg rec st vam i js).2.1.minimumSolutionSize := by
  intro js
  induction js with
  | nil =>
    intro st
    simp only [tryCandidates]
    exact chainOut_nil _
  | cons j js ih =>
    intro st
    simp only [tryCandidates]
    cases hact : (rec (extendSolution st i j) (refine cfg (extendSolution st i j) vam)).1 with
    | CSI_ABORT =>
      dsimp only
      exact hrec (extendSolution st i j) (refine cfg (extendSolution st i j) vam)
    | CSI_CONTINUE =>
      dsimp only
      exact chainOut_append
        (hrec (extendSolution st i j) (refine cfg (extendSolution st i j) vam))
        (ih (retractSolution
          ((rec (extendSolution st i j) (refine cfg (extendSolution st i j) vam)).2.1)))

theorem reportSolution_min_mono {cfg : CsiConfig σ} (st : CsiState σ)
    (hm : cfg.monotonicallyIncreasing = true) :
    (reportSolution cfg st).2.1.minimumSolutionSize = st.x.length := by
  simp [reportSolution, hm]

theorem recurse_chainOut (cfg : CsiConfig σ)
    (hc : cfg.findingCommonSubgraphs = true) (hm : cfg.monotonicallyIncreasing = true) :
    ∀ (fuel : Nat) (st : CsiState σ) (vam : Vam),
      ChainOut st.minimumSolutionSize (recurse cfg fuel st vam).2.2
        (recurse cfg fuel st vam).2.1.minimumSolutionSize := by
  intro fuel
  induction fuel with
  | zero =>
    intro st vam
    simp only [recurse]
    exact chainOut_nil _
  | succ fuel ih =>
    intro st vam
    simp only [recurse]
    by_cases hposs : isSolutionPossible cfg st vam = true
    · rw [if_pos hposs]
      have hT := tryCandidates_chainOut cfg (fun s va => recurse cfg fuel s va) vam
        (pickVertex vam st.vNotX) (fun s va => ih s va) (vam (pickVertex vam st.vNotX)) st
      cases hact1 : (tryCandidates cfg (fun s va => recurse cfg fuel s va) st vam
          (pickVertex vam st.vNotX) (vam (pickVertex vam st.vNotX))).1 with
      | CSI_ABORT =>
        dsimp only
        exact hT
      | CSI_CONTINUE =>
        dsimp only
        rw [if_pos hc]
        cases hact2 : (recurse cfg fuel
            { (tryCandidates cfg (fun s va => recurse cfg fuel s va) st vam
                (pickVertex vam st.vNotX) (vam (pickVertex vam st.vNotX))).2.1 with
              v := (tryCandidates cfg (fun s va => recurse cfg fuel s va) st vam
                (pickVertex vam st.vNotX) (vam (pickVertex vam st.vNotX))).2.1.v.erase
                  (pickVertex vam st.vNotX),
              vNotX := (tryCandidates cfg (fun s va => recurse cfg fuel s va) st vam
                (pickVertex vam st.vNotX) (vam (pickVertex vam st.vNotX))).2.1.vNotX.erase
                  (pickVertex vam st.vNotX) } vam).1 with
        | CSI_ABORT =>
          dsimp only
          exact chainOut_append hT (ih _ vam)
        | CSI_CONTINUE =>
          dsimp only
          exact chainOut_append hT (ih _ vam)
    · rw [if_neg hposs]
      by_cases hvalid : isSolutionValidSize cfg st = true
      · rw [if_pos hvalid]
        have hlo := (isSolutionValidSize_common hc hvalid).1
        have hminout := reportSolution_min_mono st hm
        refine ⟨?_, ?_, ?_, ?_⟩
        · simp [reportSolution]
        · intro s hs
          simp [reportSolution] at hs
          subst hs
          exact hlo
        · intro s hs
          simp [reportSolution] at hs
          subst hs
          rw [hminout]
        · rw [hminout]
          exact hlo
      · rw [if_neg hvalid]
        exact chainOut_nil _

/-! ## Plain-subgraph mode: every reported solution spans all of `g1` -/

theorem tryCandidates_plain (cfg : CsiConfig σ) (rec : CsiState σ → Vam → RecResult σ)
    (vam : Vam) (i : Nat)
    (hrec : ∀ s va, ∀ sol ∈ (rec s va).2.2, sol.1.length = cfg.g1.nVertices) :
    ∀ (js : List Nat) (st : CsiState σ),
      ∀ sol ∈ (tryCandidates cfg rec st vam i js).2.2, sol.1.length = cfg.g1.nVertices := by
  intro js
  induction js with
  | nil =>
    intro st sol hsol
    simp [tryCandidates] at hsol
  | cons j js ih =>
    intro st sol hsol
    simp only [tryCandidates] at hsol
    cases hact : (rec (extendSolution st i j) (refine cfg (extendSolution st i j) vam)).1 with
    | CSI_ABORT =>
      rw [hact] at hsol
      dsimp only at hsol
      exact hrec _ _ sol hsol
    | CSI_CONTINUE =>
      rw [hact] at hsol
      dsimp only at hsol
      rcases List.mem_append.mp hsol with h | h
      · exact hrec _ _ sol h
      · exact ih _ sol h

theorem recurse_plain (cfg : CsiConfig σ) (hc : cfg.findingCommonSubgraphs = false) :
    ∀ (fuel : Nat) (st : CsiState σ) (vam : Vam),
      ∀ sol ∈ (recurse cfg fuel st vam).2.2, sol.1.length = cfg.g1.nVertices := by
  intro fuel
  induction fuel with
  | zero =>
    intro st vam sol hsol
    simp [recurse] at hsol
  | succ fuel ih =>
    intro st vam sol hsol
    simp only [recurse] at hsol
    by_cases hposs : isSolutionPossible cfg st vam = true
    · rw [if_pos hposs] at hsol
      cases hact1 : (tryCandidates cfg (fun s va => recurse cfg fuel s va) st vam
          (pickVertex vam st.vNotX) (vam (pickVertex vam st.vNotX))).1 with
      | CSI_ABORT =>
        rw [hact1] at hsol
        dsimp only at hsol
        exact tryCandidates_plain cfg _ vam _ (fun s va => ih s va) _ st sol hsol
      | CSI_CONTINUE =>
        rw [hact1] at hsol
        dsimp only at hsol
        rw [if_neg (by simp [hc])] at hsol
        exact tryCandidates_plain cfg _ vam _ (fun s va => ih s va) _ st sol hsol
    · rw [if_neg hposs] at hsol
      by_cases hvalid : isSolutionValidSize cfg st = true
      · rw [if_pos hvalid] at hsol
        have : sol = (st.x, st.y) := by
          simp [reportSolution] at hsol
          exact hsol
        subst this
        exact isSolutionValidSize_plain hc hvalid
      · rw [if_neg hvalid] at hsol
        simp at hsol

/-! ## The final minimum equals the size of the last reported solution -/

/-- In monotonic mode the minimum size at return is the configured value
when the subtree reported nothing, and the size of the last reported
solution otherwise. -/
def LastMin (minIn : Nat) (tr : List Solution) (minOut : Nat) : Prop :=
  (tr = [] ∧ minOut = minIn) ∨ ∃ pre s, tr = pre ++ [s] ∧ minOut = s.1.length

theorem lastMin_nil (m : Nat) : LastMin m [] m := Or.inl ⟨rfl, rfl⟩

theorem lastMin_append {m1 m2 m3 : Nat} {t1 t2 : List Solution}
    (h1 : LastMin m1 t1 m2) (h2 : LastMin m2 t2 m3) : LastMin m1 (t1 ++ t2) m3 := by
  rcases h2 with ⟨ht2, hm3⟩ | ⟨pre, s, ht2, hm3⟩
  · subst ht2
    rw [List.append_nil]
    rcases h1 with ⟨ht1, hm2⟩ | ⟨pre, s, ht1, hm2⟩
    · exact Or.inl ⟨ht1, hm3.trans hm2⟩
    · exact Or.inr ⟨pre, s, ht1, hm3.trans hm2⟩
  · subst ht2
    exact Or.inr ⟨t1 ++ pre, s, by rw [List.append_assoc], hm3⟩

theorem tryCandidates_lastMin (cfg : CsiConfig σ) (rec : CsiState σ → Vam → RecResult σ)
    (vam : Vam) (i : Nat)
    (hrec : ∀ s va, LastMin s.minimumSolutionSize (rec s va).2.2
      (rec s va).2.1.minimumSolutionSize) :
    ∀ (js : List Nat) (st : CsiState σ),
      LastMin st.minimumSolutionSize (tryCandidates cfg rec st vam i js).2.2
        (tryCandidates cfg rec st vam i js).2.1.minimumSolutionSize := by
  intro js
  induction js with
  | nil =>
    intro st
    simp only [tryCandidates]
    exact lastMin_nil _
  | cons j js ih =>
    intro st
    simp only [tryCandidates]
    cases hact : (rec (extendSolution st i j) (refine cfg (extendSolution st i j) vam)).1 with
    | CSI_ABORT =>
      dsimp only
      exact hrec (extendSolution st i j) (refine cfg (extendSolution st i j) vam)
    | CSI_CONTINUE =>
      dsimp only
      exact lastMin_append
        (hrec (extendSolution st i j) (refine cfg (extendSolution st i j) vam))
        (ih (retractSolution
          ((rec (extendSolution st i j) (refine cfg (extendSolution st i j) vam)).2.1)))

theorem recurse_lastMin (cfg : CsiConfig σ) (hm : cfg.monotonicallyIncreasing = true) :
    ∀ (fuel : Nat) (st : CsiState σ) (vam : Vam),
      LastMin st.minimumSolutionSize (recurse cfg fuel st vam).2.2
        (recurse cfg fuel st vam).2.1.minimumSolutionSize := by
  intro fuel
  induction fuel with
  | zero =>
    intro st vam
    simp only [recurse]
    exact lastMin_nil _
  | succ fuel ih =>
    intro st vam
    simp only [recurse]
    by_cases hposs : isSolutionPossible cfg st vam = true
    · rw [if_pos hposs]
      have hT := tryCandidates_lastMin cfg (fun s va => recurse cfg fuel s va) vam
        (pickVertex vam st.vNotX) (fun s va => ih s va) (vam (pickVertex vam st.vNotX)) st
      cases hact1 : (tryCandidates cfg (fun s va => recurse cfg fuel s va) st vam
          (pickVertex vam st.vNotX) (vam (pickVertex vam st.vNotX))).1 with
      | CSI_ABORT =>
        dsimp only
        exact hT
      | CSI_CONTINUE =>
        dsimp only
        by_cases hcommon : cfg.findingCommonSubgraphs = true
        · rw [if_pos hcommon]
          cases hact2 : (recurse cfg fuel
              { (tryCandidates cfg (fun s va => recurse cfg fuel s va) st vam
                  (pickVertex vam st.vNotX) (vam (pickVertex vam st.vNotX))).2.1 with
                v := (tryCandidates cfg (fun s va => recurse cfg fuel s va) st vam
                  (pickVertex vam st.vNotX) (vam (pickVertex vam st.vNotX))).2.1.v.erase
                    (pickVertex vam st.vNotX),
                vNotX := (tryCandidates cfg (fun s va => recurse cfg fuel s va) st vam
                  (pickVertex vam st.vNotX) (vam (pickVertex vam st.vNotX))).2.1.vNotX.erase
                    (pickVertex vam st.vNotX) } vam).1 with
          | CSI_ABORT =>
            dsimp only
            exact lastMin_append hT (ih _ vam)
          | CSI_CONTINUE =>
            dsimp only
            exact lastMin_append hT (ih _ vam)
        · rw [if_neg hcommon]
          exact hT
    · rw [if_neg hposs]
      by_cases hvalid : isSolutionValidSize cfg st = true
      · rw [if_pos hvalid]
        refine Or.inr ⟨[], (st.x, st.y), ?_, ?_⟩
        · simp [reportSolution]
        · exact reportSolution_min_mono st hm
      · rw [if_neg hvalid]
        exact lastMin_nil _

end Sawyer

namespace Sawyer

/-! ## Abort propagation: processor invocations along the trace -/

/-- The solution-processor state after replaying the processor over a
trace of reported solutions (each invocation feeds the next). -/
def procFold (proc : σ → List Nat → List Nat → σ × CsiNextAction)
    (s0 : σ) (tr : List Solution) : σ :=
  tr.foldl (fun s sol => (proc s sol.1 sol.2).1) s0

theorem procFold_append (proc : σ → List Nat → List Nat → σ × CsiNextAction)
    (s0 : σ) (t1 t2 : List Solution) :
    procFold proc s0 (t1 ++ t2) = procFold proc (procFold proc s0 t1) t2 := by
  simp [procFold, List.foldl_append]

/-- Every processor invocation along the trace returned `CSI_CONTINUE`. -/
def AllContinue (proc : σ → List Nat → List Nat → σ × CsiNextAction) :
    σ → List Solution → Prop
  | _, [] => True
  | s0, sol :: rest =>
    (proc s0 sol.1 sol.2).2 = CsiNextAction.CSI_CONTINUE ∧
      AllContinue proc (proc s0 sol.1 sol.2).1 rest

/-- Every processor invocation along the trace except the last returned
`CSI_CONTINUE`, and the last returned `CSI_ABORT`. -/
def EndsAbort (proc : σ → List Nat → List Nat → σ × CsiNextAction) :
    σ → List Solution → Prop
  | _, [] => False
  | s0, [sol] => (proc s0 sol.1 sol.2).2 = CsiNextAction.CSI_ABORT
  | s0, sol :: sol2 :: rest =>
    (proc s0 sol.1 sol.2).2 = CsiNextAction.CSI_CONTINUE ∧
      EndsAbort proc (proc s0 sol.1 sol.2).1 (sol2 :: rest)

theorem endsAbort_ne_nil {proc : σ → List Nat → List Nat → σ × CsiNextAction}
    {s0 : σ} {tr : List Solution} (h : EndsAbort proc s0 tr) : tr ≠ [] := by
  cases tr with
  | nil => exact absurd h (by simp [EndsAbort])
  | cons a t => simp

theorem allContinue_append (proc : σ → List Nat → List Nat → σ × CsiNextAction) :
    ∀ (t1 : List Solution) (s0 : σ) (t2 : List Solution),
      AllContinue proc s0 t1 → AllContinue proc (procFold proc s0 t1) t2 →
      AllContinue proc s0 (t1 ++ t2)
  | [], _, _, _, h2 => h2
  | a :: t1, s0, t2, h1, h2 => by
    obtain ⟨hc, hrest⟩ := h1
    exact ⟨hc, allContinue_append proc t1 _ t2 hrest h2⟩

theorem endsAbort_append_left (proc : σ → List Nat → List Nat → σ × CsiNextAction) :
    ∀ (t1 : List Solution) (s0 : σ) {t2 : List Solution},
      AllContinue proc s0 t1 → EndsAbort proc (procFold proc s0 t1) t2 →
      EndsAbort proc s0 (t1 ++ t2)
  | [], _, _, _, h2 => h2
  | a :: t1, s0, t2, h1, h2 => by
    obtain ⟨hc, hrest⟩ := h1
    have htail := endsAbort_append_left proc t1 _ hrest h2
    rw [List.cons_append]
    cases hsh : t1 ++ t2 with
    | nil =>
      rcases List.append_eq_nil.mp hsh with ⟨_, ht2⟩
      exact absurd ht2 (endsAbort_ne_nil h2)
    | cons b rest =>
      rw [hsh] at htail
      exact ⟨hc, htail⟩

theorem reportSolution_act (cfg : CsiConfig σ) (st : CsiState σ) :
    (reportSolution cfg st).1 = (cfg.proc st.procState st.x st.y).2 := by
  simp [reportSolution]

theorem reportSolution_proc (cfg : CsiConfig σ) (st : CsiState σ) :
    (reportSolution cfg st).2.1.procState = (cfg.proc st.procState st.x st.y).1 := by
  rw [reportSolution]

theorem reportSolution_trace (cfg : CsiConfig σ) (st : CsiState σ) :
    (reportSolution cfg st).2.2 = [(st.x, st.y)] := by
  simp [reportSolution]

/-- Processor-facing correctness of one search step: the processor state
at return equals the replay of the processor over the reported trace, a
`CSI_CONTINUE` return means every invocation continued, and a `CSI_ABORT`
return means the last invocation aborted and all earlier ones continued. -/
def AbortOk (cfg : CsiConfig σ) (st : CsiState σ) (r : RecResult σ) : Prop :=
  r.2.1.procState = procFold cfg.proc st.procState r.2.2 ∧
    (r.1 = CsiNextAction.CSI_CONTINUE → AllContinue cfg.proc st.procState r.2.2) ∧
    (r.1 = CsiNextAction.CSI_ABORT → EndsAbort cfg.proc st.procState r.2.2)

theorem tryCandidates_abort (cfg : CsiConfig σ) (rec : CsiState σ → Vam → RecResult σ)
    (vam : Vam) (i : Nat)
    (hrec : ∀ s va, AbortOk cfg s (rec s va)) :
    ∀ (js : List Nat) (st : CsiState σ),
      AbortOk cfg st (tryCandidates cfg rec st vam i js) := by
  intro js
  induction js with
  | nil =>
    intro st
    simp only [tryCandidates]
    refine ⟨rfl, fun _ => ?_, fun h => ?_⟩
    · exact trivial
    · simp at h
  | cons j js ih =>
    intro st
    simp only [tryCandidates]
    cases hact : (rec (extendSolution st i j) (refine cfg (extendSolution st i j) vam)).1 with
    | CSI_ABORT =>
      dsimp only
      exact hrec (extendSolution st i j) (refine cfg (extendSolution st i j) vam)
    | CSI_CONTINUE =>
      dsimp only
      obtain ⟨hp1, hc1, _⟩ := hrec (extendSolution st i j)
        (refine cfg (extendSolution st i j) vam)
      obtain ⟨hp2, hc2, ha2⟩ := ih (retractSolution
        ((rec (extendSolution st i j) (refine cfg (extendSolution st i j) vam)).2.1))
      have hps : (retractSolution
          ((rec (extendSolution st i j) (refine cfg (extendSolution st i j) vam)).2.1)).procState
          = procFold cfg.proc st.procState
            (rec (extendSolution st i j) (refine cfg (extendSolution st i j) vam)).2.2 := hp1
      refine ⟨?_, fun h => ?_, fun h => ?_⟩
      · rw [hp2, hps, procFold_append]
      · refine allContinue_append cfg.proc _ _ _ (hc1 hact) ?_
        rw [← hps]
        exact hc2 h
      · refine endsAbort_append_left cfg.proc _ _ (hc1 hact) ?_
        rw [← hps]
        exact ha2 h

theorem recurse_abort (cfg : CsiConfig σ) :
    ∀ (fuel : Nat) (st : CsiState σ) (vam : Vam),
      AbortOk cfg st (recurse cfg fuel st vam) := by
  intro fuel
  induction fuel with
  | zero =>
    intro st vam
    simp only [recurse]
    refine ⟨rfl, fun _ => trivial, fun h => ?_⟩
    simp at h
  | succ fuel ih =>
    intro st vam
    simp only [recurse]
    by_cases hposs : isSolutionPossible cfg st vam = true
    · rw [if_pos hposs]
      obtain ⟨hpT, hcT, haT⟩ := tryCandidates_abort cfg (fun s va => recurse cfg fuel s va)
        vam (pickVertex vam st.vNotX) (fun s va => ih s va)
        (vam (pickVertex vam st.vNotX)) st
      cases hact1 : (tryCandidates cfg (fun s va => recurse cfg fuel s va) st vam
          (pickVertex vam st.vNotX) (vam (pickVertex vam st.vNotX))).1 with
      | CSI_ABORT =>
        dsimp only
        exact ⟨hpT, hcT, haT⟩
      | CSI_CONTINUE =>
        dsimp only
        by_cases hcommon : cfg.findingCommonSubgraphs = true
        · rw [if_pos hcommon]
          obtain ⟨hp2, hc2, ha2⟩ := ih
            ({ (tryCandidates cfg (fun s va => recurse cfg fuel s va) st vam
                (pickVertex vam st.vNotX) (vam (pickVertex vam st.vNotX))).2.1 with
              v := (tryCandidates cfg (fun s va => recurse cfg fuel s va) st vam
                (pickVertex vam st.vNotX) (vam (pickVertex vam st.vNotX))).2.1.v.erase
                  (pickVertex vam st.vNotX),
              vNotX := (tryCandidates cfg (fun s va => recurse cfg fuel s va) st vam
                (pickVertex vam st.vNotX) (vam (pickVertex vam st.vNotX))).2.1.vNotX.erase
                  (pickVertex vam st.vNotX) }) vam
          have hpArg : ({ (tryCandidates cfg (fun s va => recurse cfg fuel s va) st vam
                (pickVertex vam st.vNotX) (vam (pickVertex vam st.vNotX))).2.1 with
              v := (tryCandidates cfg (fun s va => recurse cfg fuel s va) st vam
                (pickVertex vam st.vNotX) (vam (pickVertex vam st.vNotX))).2.1.v.erase
                  (pickVertex vam st.vNotX),
              vNotX := (tryCandidates cfg (fun s va => recurse cfg fuel s va) st vam
                (pickVertex vam st.vNotX) (vam (pickVertex vam st.vNotX))).2.1.vNotX.erase
                  (pickVertex vam st.vNotX) } : CsiState σ).procState
              = procFold cfg.proc st.procState
                (tryCandidates cfg (fun s va => recurse cfg fuel s va) st vam
                  (pickVertex vam st.vNotX) (vam (pickVertex vam st.vNotX))).2.2 := hpT
          cases hact2 : (recurse cfg fuel
              { (tryCandidates cfg (fun s va => recurse cfg fuel s va) st vam
                  (pickVertex vam st.vNotX) (vam (pickVertex vam st.vNotX))).2.1 with
                v := (tryCandidates cfg (fun s va => recurse cfg fuel s va) st vam
                  (pickVertex vam st.vNotX) (vam (pickVertex vam st.vNotX))).2.1.v.erase
                    (pickVertex vam st.vNotX),
                vNotX := (tryCandidates cfg (fun s va => recurse cfg fuel s va) st vam
                  (pickVertex vam st.vNotX) (vam (pickVertex vam st.vNotX))).2.1.vNotX.erase
                    (pickVertex vam st.vNotX) } vam).1 with
          | CSI_ABORT =>
            dsimp only
            refine ⟨?_, fun h => ?_, fun _ => ?_⟩
            · rw [procFold_append, ← hpArg]
              exact hp2
            · simp at h
            · refine endsAbort_append_left cfg.proc _ _ (hcT hact1) ?_
              rw [← hpArg]
              exact ha2 hact2
          | CSI_CONTINUE =>
            dsimp only
            refine ⟨?_, fun _ => ?_, fun h => ?_⟩
            · rw [procFold_append, ← hpArg]
              exact hp2
            · refine allContinue_append cfg.proc _ _ _ (hcT hact1) ?_
              rw [← hpArg]
              exact hc2 hact2
            · simp at h
        · rw [if_neg hcommon]
          exact ⟨hpT, hcT, haT⟩
    · rw [if_neg hposs]
      by_cases hvalid : isSolutionValidSize cfg st = true
      · rw [if_pos hvalid]
        refine ⟨?_, fun h => ?_, fun h => ?_⟩
        · rw [reportSolution_proc, reportSolution_trace]
          rfl
        · rw [reportSolution_act] at h
          rw [reportSolution_trace]
          exact ⟨h, trivial⟩
        · rw [reportSolution_act] at h
          rw [reportSolution_trace]
          exact h
      · rw [if_neg hvalid]
        refine ⟨rfl, fun _ => trivial, fun h => ?_⟩
        simp at h

end Sawyer

namespace Sawyer

/-! ## Split lemmas for the abort predicates, and run-level wrappers -/

theorem allContinue_at_split (proc : σ → List Nat → List Nat → σ × CsiNextAction) :
    ∀ (pre : List Solution) (s0 : σ) (sol : Solution) (post : List Solution),
      AllContinue proc s0 (pre ++ sol :: post) →
      (proc (procFold proc s0 pre) sol.1 sol.2).2 = CsiNextAction.CSI_CONTINUE
  | [], _, _, _, h => h.1
  | a :: pre, s0, sol, post, h =>
    allContinue_at_split proc pre (proc s0 a.1 a.2).1 sol post h.2

theorem endsAbort_at_split (proc : σ → List Nat → List Nat → σ × CsiNextAction) :
    ∀ (pre : List Solution) (s0 : σ) (sol : Solution) (post : List Solution),
      EndsAbort proc s0 (pre ++ sol :: post) →
      (proc (procFold proc s0 pre) sol.1 sol.2).2 = CsiNextAction.CSI_ABORT →
      post = []
  | [], s0, sol, post, h, habort => by
    cases post with
    | nil => rfl
    | cons b rest =>
      obtain ⟨hc, _⟩ := h
      exact absurd (hc.symm.trans habort) (by simp)
  | a :: pre, s0, sol, post, h, habort => by
    rw [List.cons_append] at h
    have hne : pre ++ sol :: post ≠ [] := by simp
    have h2 : EndsAbort proc (proc s0 a.1 a.2).1 (pre ++ sol :: post) := by
      cases hsh : pre ++ sol :: post with
      | nil => exact absurd hsh hne
      | cons b rest =>
        rw [hsh] at h
        exact h.2
    exact endsAbort_at_split proc pre (proc s0 a.1 a.2).1 sol post h2 habort

theorem chain'_le_of_const {l : List Nat} {c : Nat} (h : ∀ a ∈ l, a = c) :
    List.Chain' (· ≤ ·) l := by
  induction l with
  | nil => exact List.chain'_nil
  | cons a t ih =>
    cases t with
    | nil => exact List.chain'_singleton a
    | cons b t2 =>
      rw [List.chain'_cons]
      refine ⟨?_, ih ?_⟩
      · rw [h a (by simp), h b (by simp)]
      · intro x hx
        exact h x (List.mem_cons_of_mem a hx)

theorem run_sound (cfg : CsiConfig σ) (st0 : CsiState σ)
    (hn2 : cfg.g2.nVertices < sizeTSentinel) :
    ∀ sol ∈ (run cfg st0).2.2, GoodSol cfg sol ∧ SolBounds cfg (reset cfg st0) sol :=
  fun sol hsol =>
    recurse_sound cfg hn2 (cfg.g1.nVertices + 1) (reset cfg st0)
      (initializeVam cfg (reset cfg st0)) (inv_initial cfg st0) sol hsol

/-! ## Membership in a refined VAM row -/

theorem edgesAreSuitable_iff (cfg : CsiConfig σ) (i iU j jU : Nat) :
    edgesAreSuitable cfg i iU j jU = true ↔
      edgeCount cfg.g1 i iU = edgeCount cfg.g2 j jU ∧
      edgeCount cfg.g1 iU i = edgeCount cfg.g2 jU j ∧
      ((findEdges cfg.g1 i iU ++ findEdges cfg.g1 iU i = [] ∧
        findEdges cfg.g2 j jU ++ findEdges cfg.g2 jU j = []) ∨
       cfg.nu i iU (findEdges cfg.g1 i iU ++ findEdges cfg.g1 iU i) j jU
         (findEdges cfg.g2 j jU ++ findEdges cfg.g2 jU j) = true) := by
  unfold edgeCount
  rw [edgesAreSuitable]
  dsimp only
  split_ifs with h1 h2 h3
  · simp only [bne_iff_ne, ne_eq] at h1
    constructor
    · intro h
      exact absurd h (by simp)
    · intro h
      exact absurd h.1 h1
  · simp only [bne_iff_ne, ne_eq, not_not] at h1
    simp only [bne_iff_ne, ne_eq, List.length_append] at h2
    constructor
    · intro h
      exact absurd h (by simp)
    · intro h
      exact absurd (by rw [h.1, h.2.1]) h2
  · simp only [bne_iff_ne, ne_eq, not_not] at h1
    simp only [bne_iff_ne, ne_eq, List.length_append, not_not] at h2
    rw [Bool.and_eq_true, List.isEmpty_iff, List.isEmpty_iff] at h3
    constructor
    · intro _
      exact ⟨h1, by omega, Or.inl h3⟩
    · intro _
      rfl
  · simp only [bne_iff_ne, ne_eq, not_not] at h1
    simp only [bne_iff_ne, ne_eq, List.length_append, not_not] at h2
    rw [Bool.and_eq_true, List.isEmpty_iff, List.isEmpty_iff] at h3
    constructor
    · intro h
      exact ⟨h1, by omega, Or.inr h⟩
    · intro h
      rcases h.2.2 with hemp | hnu
      · exact absurd hemp h3
      · exact hnu

theorem mem_refine_iff (cfg : CsiConfig σ) (st : CsiState σ) (vam : Vam) {i : Nat} (j : Nat)
    (hi : i ∈ st.vNotX) :
    j ∈ refine cfg st vam i ↔
      j ∈ vam i ∧ j ≠ st.y.getLastD 0 ∧
        edgesAreSuitable cfg (st.x.getLastD 0) i (st.y.getLastD 0) j = true := by
  rw [refine, if_pos hi]
  rw [List.mem_filter, Bool.and_eq_true, bne_iff_ne]

end Sawyer

namespace Sawyer

/-! ## Concrete instances used by the claim witnesses and counterexamples -/

/-- The directed 3-cycle of scenario B. -/
def cycle3 : Graph := ⟨3, [(0, 1), (1, 2), (2, 0)]⟩

/-- A solution processor that always continues (state `Unit`). -/
def trivialContinueProc : Unit → List Nat → List Nat → Unit × CsiNextAction :=
  fun _ _ _ => ((), CsiNextAction.CSI_CONTINUE)

/-- A solution processor that aborts on the first solution. -/
def trivialAbortProc : Unit → List Nat → List Nat → Unit × CsiNextAction :=
  fun _ _ _ => ((), CsiNextAction.CSI_ABORT)

/-- Two copies of the one-edge path on two vertices, default configuration. -/
def pathCfg : CsiConfig Unit :=
  { g1 := ⟨2, [(0, 1)]⟩, g2 := ⟨2, [(0, 1)]⟩,
    mu := fun _ _ => true, nu := fun _ _ _ _ _ _ => true,
    proc := trivialContinueProc,
    findingCommonSubgraphs := true, monotonicallyIncreasing := false }

/-- Like `pathCfg` but with `monotonicallyIncreasing(true)`. -/
def monoCfg : CsiConfig Unit :=
  { g1 := ⟨2, [(0, 1)]⟩, g2 := ⟨2, [(0, 1)]⟩,
    mu := fun _ _ => true, nu := fun _ _ _ _ _ _ => true,
    proc := trivialContinueProc,
    findingCommonSubgraphs := true, monotonicallyIncreasing := true }

/-- Single-vertex graphs with a processor that aborts at once. -/
def abortCfg : CsiConfig Unit :=
  { g1 := ⟨1, []⟩, g2 := ⟨1, []⟩,
    mu := fun _ _ => true, nu := fun _ _ _ _ _ _ => true,
    proc := trivialAbortProc,
    findingCommonSubgraphs := true, monotonicallyIncreasing := false }

/-- Plain-subgraph mode on two empty graphs (the degenerate case of C8). -/
def plainEmptyCfg : CsiConfig Unit :=
  { g1 := ⟨0, []⟩, g2 := ⟨0, []⟩,
    mu := fun _ _ => true, nu := fun _ _ _ _ _ _ => true,
    proc := trivialContinueProc,
    findingCommonSubgraphs := false, monotonicallyIncreasing := false }

/-- Two edgeless two-vertex graphs and a `nu` that rejects whenever its two
vertices of the same graph differ; since it accepts at `initializeVam`
(where both are the same vertex) but would reject in `refine`, it exhibits
that `refine` never consults `nu` when there are no connecting edges. -/
def nuRefineCfg : CsiConfig Unit :=
  { g1 := ⟨2, []⟩, g2 := ⟨2, []⟩,
    mu := fun _ _ => true, nu := fun i1 i2 _ _ _ _ => i1 == i2,
    proc := trivialContinueProc,
    findingCommonSubgraphs := true, monotonicallyIncreasing := false }

end Sawyer

namespace Sawyer

/-- C1: for every solution `(x, y)` reported to the solution processor
during any `run()` (any graphs, configuration, processor and equivalence
predicate), the two vertex-id vectors have equal length, the entries of
`x` are pairwise distinct, the entries of `y` are pairwise distinct, and
every aligned pair satisfies the `mu` predicate.  (The `g2` size bound
only excludes graphs too large for the `size_t(-1)` sentinel of a 64-bit
platform, which the C++ code itself presupposes in `pickVertex`.) -/
theorem C1_reported_solutions_wellformed {σ : Type} (cfg : CsiConfig σ) (st0 : CsiState σ)
    (hn2 : cfg.g2.nVertices < sizeTSentinel) :
    ∀ sol ∈ (run cfg st0).2.2,
      sol.1.length = sol.2.length ∧ sol.1.Nodup ∧ sol.2.Nodup ∧
        ∀ k, k < sol.1.length → cfg.mu (sol.1.getD k 0) (sol.2.getD k 0) = true := by
  intro sol hsol
  obtain ⟨⟨hlen, hndx, hndy, hmu, _, _⟩, _⟩ := run_sound cfg st0 hn2 sol hsol
  exact ⟨hlen, hndx, hndy, fun k hk => hmu k hk⟩

theorem C1_witness : pathCfg.g2.nVertices < sizeTSentinel ∧
    (∀ sol ∈ (run pathCfg (initialState ())).2.2,
      sol.1.length = sol.2.length ∧ sol.1.Nodup ∧ sol.2.Nodup ∧
        ∀ k, k < sol.1.length →
          pathCfg.mu (sol.1.getD k 0) (sol.2.getD k 0) = true) :=
  ⟨by decide, C1_reported_solutions_wellformed pathCfg (initialState ()) (by decide)⟩

/-- C2: for every solution `(x, y)` reported by `run()`, the number of
`g1` edges from `x[p]` to `x[q]` equals the number of `g2` edges from
`y[p]` to `y[q]` for all `p < q`, likewise in the reverse direction, and
the self-loop edge counts agree at every position; `edgeCount` counts the
edge-list entries, so parallel edges count individually. -/
theorem C2_structural_soundness {σ : Type} (cfg : CsiConfig σ) (st0 : CsiState σ)
    (hn2 : cfg.g2.nVertices < sizeTSentinel) :
    ∀ sol ∈ (run cfg st0).2.2,
      (∀ p q, p < q → q < sol.1.length →
        edgeCount cfg.g1 (sol.1.getD p 0) (sol.1.getD q 0)
          = edgeCount cfg.g2 (sol.2.getD p 0) (sol.2.getD q 0) ∧
        edgeCount cfg.g1 (sol.1.getD q 0) (sol.1.getD p 0)
          = edgeCount cfg.g2 (sol.2.getD q 0) (sol.2.getD p 0)) ∧
      (∀ p, p < sol.1.length →
        edgeCount cfg.g1 (sol.1.getD p 0) (sol.1.getD p 0)
          = edgeCount cfg.g2 (sol.2.getD p 0) (sol.2.getD p 0)) := by
  intro sol hsol
  obtain ⟨⟨_, _, _, _, hpairs, hself⟩, _⟩ := run_sound cfg st0 hn2 sol hsol
  exact ⟨fun p q hpq hq => hpairs p q hpq hq, fun p hp => hself p hp⟩

theorem C2_witness : pathCfg.g2.nVertices < sizeTSentinel ∧
    (∀ sol ∈ (run pathCfg (initialState ())).2.2,
      (∀ p q, p < q → q < sol.1.length →
        edgeCount pathCfg.g1 (sol.1.getD p 0) (sol.1.getD q 0)
          = edgeCount pathCfg.g2 (sol.2.getD p 0) (sol.2.getD q 0) ∧
        edgeCount pathCfg.g1 (sol.1.getD q 0) (sol.1.getD p 0)
          = edgeCount pathCfg.g2 (sol.2.getD q 0) (sol.2.getD p 0)) ∧
      (∀ p, p < sol.1.length →
        edgeCount pathCfg.g1 (sol.1.getD p 0) (sol.1.getD p 0)
          = edgeCount pathCfg.g2 (sol.2.getD p 0) (sol.2.getD p 0))) :=
  ⟨by decide, C2_structural_soundness pathCfg (initialState ()) (by decide)⟩

/-- C3: every solution reported by `run()` satisfies the size policy: in
common-subgraph mode its size lies between the configured minimum and
maximum solution sizes, and in plain subgraph mode it equals the number
of vertices of `g1`. -/
theorem C3_size_policy {σ : Type} (cfg : CsiConfig σ) (st0 : CsiState σ)
    (hn2 : cfg.g2.nVertices < sizeTSentinel) :
    ∀ sol ∈ (run cfg st0).2.2,
      (cfg.findingCommonSubgraphs = true →
        st0.minimumSolutionSize ≤ sol.1.length ∧
          sol.1.length ≤ st0.maximumSolutionSize) ∧
      (cfg.findingCommonSubgraphs = false → sol.1.length = cfg.g1.nVertices) := by
  intro sol hsol
  obtain ⟨_, hbounds⟩ := run_sound cfg st0 hn2 sol hsol
  exact hbounds

theorem C3_witness : pathCfg.g2.nVertices < sizeTSentinel ∧
    (∀ sol ∈ (run pathCfg (initialState ())).2.2,
      (pathCfg.findingCommonSubgraphs = true →
        (initialState ()).minimumSolutionSize ≤ sol.1.length ∧
          sol.1.length ≤ (initialState ()).maximumSolutionSize) ∧
      (pathCfg.findingCommonSubgraphs = false →
        sol.1.length = pathCfg.g1.nVertices)) :=
  ⟨by decide, C3_size_policy pathCfg (initialState ()) (by decide)⟩

end Sawyer

namespace Sawyer

/-- C4 (counterexample): with `nuRefineCfg`, after committing the pair
`(0, 0)` (so `x.back() = 0`, `y.back() = 0`), the refined row of the
still-unmatched vertex `1` contains the candidate `1`, although `nu`
applied to the two (empty) connecting edge sets returns `false`: when
there are no connecting edges between the committed pair and the
candidate pair, `edgesAreSuitable` returns `true` without consulting
`nu`, so the claim's condition (iii) does not characterize the row. -/
theorem C4_counterexample :
    1 ∈ refine nuRefineCfg (extendSolution (reset nuRefineCfg (initialState ())) 0 0)
        (initializeVam nuRefineCfg (reset nuRefineCfg (initialState ()))) 1 ∧
    nuRefineCfg.nu 0 1
        (findEdges nuRefineCfg.g1 0 1 ++ findEdges nuRefineCfg.g1 1 0) 0 1
        (findEdges nuRefineCfg.g2 0 1 ++ findEdges nuRefineCfg.g2 1 0) = false ∧
    (extendSolution (reset nuRefineCfg (initialState ())) 0 0).x.getLastD 0 = 0 ∧
    (extendSolution (reset nuRefineCfg (initialState ())) 0 0).y.getLastD 0 = 0 := by
  decide

/-- C4 (amended): the refined row for a still-unmatched `g1` vertex `i`
contains exactly those parent candidates `j` such that (i) `j` is not the
just-committed `g2` vertex `y.back()`, (ii) the edge counts between
`x.back()` and `i` in `g1` equal those between `y.back()` and `j` in `g2`
in both directions, and (iii) either there are no connecting edges at all
(in which case `nu` is not consulted), or `nu` applied to the two
connecting edge lists returns true. -/
theorem C4_refine_characterization {σ : Type} (cfg : CsiConfig σ) (st : CsiState σ)
    (vam : Vam) (i j : Nat) (hi : i ∈ st.vNotX) :
    j ∈ refine cfg st vam i ↔
      j ∈ vam i ∧ j ≠ st.y.getLastD 0 ∧
        edgeCount cfg.g1 (st.x.getLastD 0) i = edgeCount cfg.g2 (st.y.getLastD 0) j ∧
        edgeCount cfg.g1 i (st.x.getLastD 0) = edgeCount cfg.g2 j (st.y.getLastD 0) ∧
        ((findEdges cfg.g1 (st.x.getLastD 0) i ++ findEdges cfg.g1 i (st.x.getLastD 0) = [] ∧
          findEdges cfg.g2 (st.y.getLastD 0) j ++ findEdges cfg.g2 j (st.y.getLastD 0) = []) ∨
         cfg.nu (st.x.getLastD 0) i
           (findEdges cfg.g1 (st.x.getLastD 0) i ++ findEdges cfg.g1 i (st.x.getLastD 0))
           (st.y.getLastD 0) j
           (findEdges cfg.g2 (st.y.getLastD 0) j ++ findEdges cfg.g2 j (st.y.getLastD 0))
           = true) := by
  rw [mem_refine_iff cfg st vam j hi, edgesAreSuitable_iff]

theorem C4_witness :
    (1 ∈ (extendSolution (reset nuRefineCfg (initialState ())) 0 0).vNotX) ∧
    (1 ∈ refine nuRefineCfg (extendSolution (reset nuRefineCfg (initialState ())) 0 0)
        (initializeVam nuRefineCfg (reset nuRefineCfg (initialState ()))) 1 ↔
      1 ∈ initializeVam nuRefineCfg (reset nuRefineCfg (initialState ())) 1 ∧
        1 ≠ (extendSolution (reset nuRefineCfg (initialState ())) 0 0).y.getLastD 0 ∧
        edgeCount nuRefineCfg.g1
            ((extendSolution (reset nuRefineCfg (initialState ())) 0 0).x.getLastD 0) 1
          = edgeCount nuRefineCfg.g2
            ((extendSolution (reset nuRefineCfg (initialState ())) 0 0).y.getLastD 0) 1 ∧
        edgeCount nuRefineCfg.g1 1
            ((extendSolution (reset nuRefineCfg (initialState ())) 0 0).x.getLastD 0)
          = edgeCount nuRefineCfg.g2 1
            ((extendSolution (reset nuRefineCfg (initialState ())) 0 0).y.getLastD 0) ∧
        ((findEdges nuRefineCfg.g1
              ((extendSolution (reset nuRefineCfg (initialState ())) 0 0).x.getLastD 0) 1 ++
            findEdges nuRefineCfg.g1 1
              ((extendSolution (reset nuRefineCfg (initialState ())) 0 0).x.getLastD 0) = [] ∧
          findEdges nuRefineCfg.g2
              ((extendSolution (reset nuRefineCfg (initialState ())) 0 0).y.getLastD 0) 1 ++
            findEdges nuRefineCfg.g2 1
              ((extendSolution (reset nuRefineCfg (initialState ())) 0 0).y.getLastD 0) = []) ∨
         nuRefineCfg.nu
           ((extendSolution (reset nuRefineCfg (initialState ())) 0 0).x.getLastD 0) 1
           (findEdges nuRefineCfg.g1
              ((extendSolution (reset nuRefineCfg (initialState ())) 0 0).x.getLastD 0) 1 ++
            findEdges nuRefineCfg.g1 1
              ((extendSolution (reset nuRefineCfg (initialState ())) 0 0).x.getLastD 0))
           ((extendSolution (reset nuRefineCfg (initialState ())) 0 0).y.getLastD 0) 1
           (findEdges nuRefineCfg.g2
              ((extendSolution (reset nuRefineCfg (initialState ())) 0 0).y.getLastD 0) 1 ++
            findEdges nuRefineCfg.g2 1
              ((extendSolution (reset nuRefineCfg (initialState ())) 0 0).y.getLastD 0))
           = true)) :=
  ⟨by decide, C4_refine_characterization nuRefineCfg
    (extendSolution (reset nuRefineCfg (initialState ())) 0 0)
    (initializeVam nuRefineCfg (reset nuRefineCfg (initialState ()))) 1 1 (by decide)⟩

/-- C5: once the solution processor returns `CSI_ABORT` during a `run()`,
no further processor invocations occur in that run: an invocation that
returns `CSI_ABORT` is necessarily the last entry of the reported trace
(`procFold` replays the processor state the engine actually passed to
each invocation). -/
theorem C5_abort_is_final {σ : Type} (cfg : CsiConfig σ) (st0 : CsiState σ) :
    ∀ pre sol post, (run cfg st0).2.2 = pre ++ sol :: post →
      (cfg.proc (procFold cfg.proc (reset cfg st0).procState pre) sol.1 sol.2).2
        = CsiNextAction.CSI_ABORT → post = [] := by
  intro pre sol post hsplit habort
  have hA := recurse_abort cfg (cfg.g1.nVertices + 1) (reset cfg st0)
    (initializeVam cfg (reset cfg st0))
  have hsplit2 : (recurse cfg (cfg.g1.nVertices + 1) (reset cfg st0)
      (initializeVam cfg (reset cfg st0))).2.2 = pre ++ sol :: post := hsplit
  cases hact : (recurse cfg (cfg.g1.nVertices + 1) (reset cfg st0)
      (initializeVam cfg (reset cfg st0))).1 with
  | CSI_CONTINUE =>
    have hC := hA.2.1 hact
    rw [hsplit2] at hC
    have := allContinue_at_split cfg.proc pre (reset cfg st0).procState sol post hC
    rw [habort] at this
    exact absurd this (by simp)
  | CSI_ABORT =>
    have hE := hA.2.2 hact
    rw [hsplit2] at hE
    exact endsAbort_at_split cfg.proc pre (reset cfg st0).procState sol post hE habort

theorem C5_witness :
    ((run abortCfg (initialState ())).2.2 = [] ++ ([0], [0]) :: []) ∧
    ((abortCfg.proc (procFold abortCfg.proc (reset abortCfg (initialState ())).procState [])
        [0] [0]).2 = CsiNextAction.CSI_ABORT) ∧
    ([] : List Solution) = [] :=
  ⟨by decide, by decide,
    C5_abort_is_final abortCfg (initialState ()) [] ([0], [0]) [] (by decide) (by decide)⟩

/-- C6: when `monotonicallyIncreasing` is enabled, the solutions reported
during a single `run()` appear in non-decreasing size order: each reported
solution is at least as large as the one reported just before it (in
common-subgraph mode the minimum size is raised to each reported size
before reporting, which prunes smaller solutions; in plain subgraph mode
every reported solution already has the same size, `|V(g1)|`). -/
theorem C6_monotonic_nondecreasing {σ : Type} (cfg : CsiConfig σ) (st0 : CsiState σ)
    (hm : cfg.monotonicallyIncreasing = true) :
    ∀ m, m + 1 < (run cfg st0).2.2.length →
      ((run cfg st0).2.2.getD m ([], [])).1.length ≤
        ((run cfg st0).2.2.getD (m + 1) ([], [])).1.length := by
  have hchain : List.Chain' (· ≤ ·) ((run cfg st0).2.2.map (fun sol => sol.1.length)) := by
    by_cases hc : cfg.findingCommonSubgraphs = true
    · exact (recurse_chainOut cfg hc hm (cfg.g1.nVertices + 1) (reset cfg st0)
        (initializeVam cfg (reset cfg st0))).1
    · have hcf : cfg.findingCommonSubgraphs = false := by
        revert hc
        cases cfg.findingCommonSubgraphs <;> simp
      have hall := recurse_plain cfg hcf (cfg.g1.nVertices + 1) (reset cfg st0)
        (initializeVam cfg (reset cfg st0))
      refine @chain'_le_of_const _ cfg.g1.nVertices ?_
      intro a ha
      rcases List.mem_map.mp ha with ⟨sol, hsol, rfl⟩
      exact hall sol hsol
  intro m hlt
  rw [List.chain'_iff_get] at hchain
  have hmap : ((run cfg st0).2.2.map (fun sol => sol.1.length)).length
      = (run cfg st0).2.2.length := List.length_map _ _
  have hbound : m < ((run cfg st0).2.2.map (fun sol => sol.1.length)).length - 1 := by
    omega
  have hstep := hchain m hbound
  simp only [List.get_eq_getElem, List.getElem_map] at hstep
  rw [List.getD_eq_getElem _ _ (by omega : m < (run cfg st0).2.2.length),
    List.getD_eq_getElem _ _ hlt]
  exact hstep

theorem C6_witness : monoCfg.monotonicallyIncreasing = true ∧
    (∀ m, m + 1 < (run monoCfg (initialState ())).2.2.length →
      ((run monoCfg (initialState ())).2.2.getD m ([], [])).1.length ≤
        ((run monoCfg (initialState ())).2.2.getD (m + 1) ([], [])).1.length) :=
  ⟨by decide, C6_monotonic_nondecreasing monoCfg (initialState ()) (by decide)⟩

end Sawyer

namespace Sawyer

/-- C7: for `g1` and `g2` both the directed 3-cycle `0 → 1 → 2 → 0`,
`findMaximumCommonIsomorphicSubgraphs` (default equivalence predicate)
returns exactly 3 solutions — the three cyclic rotations of the vertex
correspondence — each of size 3, and no returned solution has size less
than 3. -/
theorem C7_cycle3_three_rotations :
    findMaximumCommonIsomorphicSubgraphs cycle3 cycle3 =
      [([0, 1, 2], [0, 1, 2]), ([0, 1, 2], [1, 2, 0]), ([0, 1, 2], [2, 0, 1])] ∧
    (findMaximumCommonIsomorphicSubgraphs cycle3 cycle3).length = 3 ∧
    (∀ sol ∈ findMaximumCommonIsomorphicSubgraphs cycle3 cycle3,
      sol.1.length = 3 ∧ sol.2.length = 3 ∧ ¬sol.1.length < 3) := by
  decide

end Sawyer

namespace Sawyer

/-- C8 (counterexample): in plain subgraph mode with both graphs empty and
the default minimum solution size of 1, `run()` reports the empty solution
`([], [])` — `isSolutionValidSize` ignores the minimum in plain subgraph
mode and accepts `len(x) = |V(g1)| = 0` — so the empty solution is not
unreported "for every pair of input graphs and in both search modes". -/
theorem C8_counterexample :
    plainEmptyCfg.findingCommonSubgraphs = false ∧
    (initialState ()).minimumSolutionSize = 1 ∧
    (run plainEmptyCfg (initialState ())).2.2 = [([], [])] := by
  decide

/-- C8 (amended): with a minimum solution size of at least 1 (the default
is 1), the empty solution is never reported in common-subgraph mode; in
plain subgraph mode it is never reported provided `g1` has at least one
vertex (with an empty `g1` the empty solution is reported, since the
minimum is ignored in that mode). -/
theorem C8_empty_never_reported {σ : Type} (cfg : CsiConfig σ) (st0 : CsiState σ)
    (hn2 : cfg.g2.nVertices < sizeTSentinel) (hmin : 1 ≤ st0.minimumSolutionSize) :
    ∀ sol ∈ (run cfg st0).2.2,
      (cfg.findingCommonSubgraphs = true → sol.1 ≠ []) ∧
      (cfg.findingCommonSubgraphs = false → 1 ≤ cfg.g1.nVertices → sol.1 ≠ []) := by
  intro sol hsol
  obtain ⟨_, hbounds⟩ := run_sound cfg st0 hn2 sol hsol
  constructor
  · intro hc hnil
    have hlo := (hbounds.1 hc).1
    have hr : (reset cfg st0).minimumSolutionSize = st0.minimumSolutionSize := rfl
    rw [hr] at hlo
    have hlen : sol.1.length = 0 := by rw [hnil]; rfl
    omega
  · intro hc hg hnil
    have hlen := hbounds.2 hc
    rw [hnil] at hlen
    simp at hlen
    omega

theorem C8_witness : pathCfg.g2.nVertices < sizeTSentinel ∧
    1 ≤ (initialState ()).minimumSolutionSize ∧
    (∀ sol ∈ (run pathCfg (initialState ())).2.2,
      (pathCfg.findingCommonSubgraphs = true → sol.1 ≠ []) ∧
      (pathCfg.findingCommonSubgraphs = false → 1 ≤ pathCfg.g1.nVertices → sol.1 ≠ [])) :=
  ⟨by decide, by decide,
    C8_empty_never_reported pathCfg (initialState ()) (by decide) (by decide)⟩

/-- C9 (counterexample): the mutations are not undone on the `CSI_ABORT`
exit path: with a processor that aborts on the first solution, the
top-level invocation of `recurse` (made by `run` on the state produced by
`reset`, whose `x` is empty) returns `CSI_ABORT` with `x = [0]` — the
early `return CSI_ABORT` skips `retractSolution` and the re-insertion
into `v`/`vNotX`. -/
theorem C9_counterexample :
    (run abortCfg (initialState ())).1 = CsiNextAction.CSI_ABORT ∧
    (reset abortCfg (initialState ())).x = [] ∧
    (run abortCfg (initialState ())).2.1.x = [0] ∧
    (reset abortCfg (initialState ())).vNotX = [0] ∧
    (run abortCfg (initialState ())).2.1.vNotX = [] := by
  decide

/-- C9 (amended): whenever an invocation of the recursive step returns
`CSI_CONTINUE`, the engine state `x`, `y`, `v`, `vNotX` at its return
equals the state at its entry (under the structural invariant of those
sets and the row bound that the engine maintains); on the `CSI_ABORT`
path the mutations of the aborted frames are deliberately left in place,
as the counterexample shows. -/
theorem C9_state_restored_on_continue {σ : Type} (cfg : CsiConfig σ) (fuel : Nat)
    (st : CsiState σ) (vam : Vam) (hn2 : cfg.g2.nVertices < sizeTSentinel)
    (hSt : StInv st.v st.vNotX st.x) (hRB : RowBound cfg vam)
    (hcont : (recurse cfg fuel st vam).1 = CsiNextAction.CSI_CONTINUE) :
    (recurse cfg fuel st vam).2.1.x = st.x ∧ (recurse cfg fuel st vam).2.1.y = st.y ∧
      (recurse cfg fuel st vam).2.1.v = st.v ∧
      (recurse cfg fuel st vam).2.1.vNotX = st.vNotX :=
  recurse_restores cfg hn2 fuel st vam hSt hRB hcont

theorem C9_witness : pathCfg.g2.nVertices < sizeTSentinel ∧
    (recurse pathCfg 3 (reset pathCfg (initialState ()))
      (initializeVam pathCfg (reset pathCfg (initialState ())))).1
        = CsiNextAction.CSI_CONTINUE ∧
    ((recurse pathCfg 3 (reset pathCfg (initialState ()))
        (initializeVam pathCfg (reset pathCfg (initialState ())))).2.1.x
        = (reset pathCfg (initialState ())).x ∧
      (recurse pathCfg 3 (reset pathCfg (initialState ()))
        (initializeVam pathCfg (reset pathCfg (initialState ())))).2.1.y
        = (reset pathCfg (initialState ())).y ∧
      (recurse pathCfg 3 (reset pathCfg (initialState ()))
        (initializeVam pathCfg (reset pathCfg (initialState ())))).2.1.v
        = (reset pathCfg (initialState ())).v ∧
      (recurse pathCfg 3 (reset pathCfg (initialState ()))
        (initializeVam pathCfg (reset pathCfg (initialState ())))).2.1.vNotX
        = (reset pathCfg (initialState ())).vNotX) :=
  ⟨by decide, by decide,
    C9_state_restored_on_continue pathCfg 3 (reset pathCfg (initialState ()))
      (initializeVam pathCfg (reset pathCfg (initialState ()))) (by decide)
      ⟨by decide, by decide, by decide, by decide, by decide⟩
      (rowBound_initializeVam (by decide)) (by decide)⟩

end Sawyer

namespace Sawyer

/-- C10: the raised minimum persists. (i) After any `run()` with
`monotonicallyIncreasing` enabled whose trace ends with a solution `sol`,
the engine state's `minimumSolutionSize` equals `sol`'s size (each report
raised the minimum to its own size, so the last one wins). (ii) `reset()`
leaves `minimumSolutionSize` untouched, so a subsequent `run()` starts
from the raised value. (iii) Consequently a second `run()` from a state
whose minimum was raised reports, in common-subgraph mode, only solutions
at least that large. -/
theorem C10_minimum_persists :
    (∀ (σ : Type) (cfg : CsiConfig σ) (st0 : CsiState σ),
      cfg.monotonicallyIncreasing = true →
      ∀ (pre : List Solution) (sol : Solution), (run cfg st0).2.2 = pre ++ [sol] →
        (run cfg st0).2.1.minimumSolutionSize = sol.1.length) ∧
    (∀ (σ : Type) (cfg : CsiConfig σ) (st : CsiState σ),
      (reset cfg st).minimumSolutionSize = st.minimumSolutionSize) ∧
    (∀ (σ : Type) (cfg : CsiConfig σ) (st0 : CsiState σ),
      cfg.g2.nVertices < sizeTSentinel →
      cfg.findingCommonSubgraphs = true →
      ∀ sol ∈ (run cfg st0).2.2, st0.minimumSolutionSize ≤ sol.1.length) := by
  refine ⟨?_, ?_, ?_⟩
  · intro σ cfg st0 hm pre sol htr
    have hlm := recurse_lastMin cfg hm (cfg.g1.nVertices + 1)
      (reset cfg st0) (initializeVam cfg (reset cfg st0))
    rcases hlm with ⟨hnil, _⟩ | ⟨pre2, s2, htr2, hmin⟩
    · exact absurd (htr ▸ hnil) (by simp)
    · have hlast : some s2 = some sol := by
        have h1 : ((run cfg st0).2.2).getLast? = some s2 := by
          rw [show (run cfg st0).2.2
                = (recurse cfg (cfg.g1.nVertices + 1) (reset cfg st0)
                    (initializeVam cfg (reset cfg st0))).2.2 from rfl, htr2]
          simp
        have h2 : ((run cfg st0).2.2).getLast? = some sol := by
          rw [htr]; simp
        exact h1.symm.trans h2
      rw [show (run cfg st0).2.1
            = (recurse cfg (cfg.g1.nVertices + 1) (reset cfg st0)
                (initializeVam cfg (reset cfg st0))).2.1 from rfl, hmin,
          Option.some.inj hlast]
  · intro σ cfg st
    rfl
  · intro σ cfg st0 hn2 hc sol hsol
    have hlo := ((run_sound cfg st0 hn2 sol hsol).2.1 hc).1
    have hr : (reset cfg st0).minimumSolutionSize = st0.minimumSolutionSize := rfl
    rw [hr] at hlo
    exact hlo

end Sawyer
